import Mathlib

set_option maxRecDepth 8000

/-!
Shallow embedding of the imgmkr generator core (Go) and verification of its
specification claims.

Conventions used throughout:
* Go int64 values in the planner are modelled as Nat; every claim constrains
  them to be nonnegative, and the proofs establish that every subtraction in
  the source acts on operands where the Go value is also nonnegative.
* Randomness (math/rand) is modelled by an oracle g : Nat → Nat, an arbitrary
  stream of draws, threaded by an explicit index k.  rand.Intn n and
  rand.Int63n n return the next stream value reduced mod n; Go panics when
  n ≤ 0, which is modelled as the Option value none.
* Go strings are modelled as lists of characters (ASCII behaviour).
-/

/-- 1 KiB; constant KB of size/parser.go. -/
def KB : Nat := 1024

/-- 1 MiB; constant MB of size/parser.go. -/
def MB : Nat := 1024 * KB

/-- 1 GiB; constant GB of size/parser.go. -/
def GB : Nat := 1024 * MB

/-- One draw from the random oracle: models rand.Intn / rand.Int63n.
Go panics when the bound is ≤ 0 (modelled as none); otherwise the draw is
some value in [0, n), here the next stream value reduced mod n. -/
def randn (g : Nat → Nat) (k : Nat) (n : Nat) : Option (Nat × Nat) :=
  if n = 0 then none else some (g k % n, k + 1)

/-- mockfs.Plan: four ordered collections of byte sizes (plan.go). -/
structure Plan where
  VeryLargeFiles : List Nat
  LargeFiles : List Nat
  MediumFiles : List Nat
  SmallFiles : List Nat
deriving DecidableEq, Repr

/-- Sum of every size emitted by a plan. -/
def planSum (p : Plan) : Nat :=
  p.VeryLargeFiles.sum + p.LargeFiles.sum + p.MediumFiles.sum + p.SmallFiles.sum

/-- Number of size entries in a plan. -/
def planCount (p : Plan) : Nat :=
  p.VeryLargeFiles.length + p.LargeFiles.length + p.MediumFiles.length +
    p.SmallFiles.length

/-- The clamp applied to a drawn very-large size (plan.go lines 36-41):
capped at half the remaining size, then floored back at 512 MiB. -/
def vlClamp (rem fs0 : Nat) : Nat :=
  if (if rem / 2 < fs0 then rem / 2 else fs0) < 512 * MB then 512 * MB
  else if rem / 2 < fs0 then rem / 2 else fs0

/-- The very-large bucket loop of CreatePlan (plan.go lines 33-46), recursing
on its fuel (numVeryLarge).  Arguments after the fuel: remainingSize,
remainingFiles, oracle index, accumulated sizes; the result is the updated
(sizes, remainingSize, remainingFiles, oracle index), or none where Go
panics (rand.Int63n with a bound ≤ 0, i.e. totalSize/2 = 512 MiB). -/
def veryLargeLoop (g : Nat → Nat) (totalSize : Nat) (n : Nat) :
    Nat → Nat → Nat → List Nat → Option (List Nat × Nat × Nat × Nat) :=
  Nat.rec (motive := fun _ => Nat → Nat → Nat → List Nat →
      Option (List Nat × Nat × Nat × Nat))
    (fun rem rf k acc => some (acc, rem, rf, k))
    (fun _ ih rem rf k acc =>
      if 512 * MB < rem ∧ 0 < rf then
        (randn g k (totalSize / 2 - 512 * MB)).bind fun rk =>
          ih (rem - vlClamp rem (rk.1 + 512 * MB)) (rf - 1) rk.2
            (acc ++ [vlClamp rem (rk.1 + 512 * MB)])
      else some (acc, rem, rf, k)) n

/-- maxSize of the large bucket loop (plan.go lines 57-60): 512 MiB, lowered
to twice the per-file average when that average is below 512 MiB. -/
def largeMax (rem rf : Nat) : Nat :=
  if rem / rf < 512 * MB then rem / rf * 2 else 512 * MB

/-- The large bucket loop of CreatePlan (plan.go lines 56-69), recursing on
its fuel (numLarge); the inner break when maxSize falls below 10 MiB returns
the current state. -/
def largeLoop (g : Nat → Nat) (n : Nat) :
    Nat → Nat → Nat → List Nat → Option (List Nat × Nat × Nat × Nat) :=
  Nat.rec (motive := fun _ => Nat → Nat → Nat → List Nat →
      Option (List Nat × Nat × Nat × Nat))
    (fun rem rf k acc => some (acc, rem, rf, k))
    (fun _ ih rem rf k acc =>
      if 10 * MB < rem ∧ 0 < rf then
        if largeMax rem rf < 10 * MB then some (acc, rem, rf, k)
        else
          (randn g k (largeMax rem rf - 10 * MB)).bind fun rk =>
            ih (rem - (rk.1 + 10 * MB)) (rf - 1) rk.2 (acc ++ [rk.1 + 10 * MB])
      else some (acc, rem, rf, k)) n

/-- maxSize of the medium bucket loop (plan.go lines 80-83). -/
def mediumMax (rem rf : Nat) : Nat :=
  if rem / rf < 10 * MB then rem / rf * 2 else 10 * MB

/-- The medium bucket loop of CreatePlan (plan.go lines 79-92). -/
def mediumLoop (g : Nat → Nat) (n : Nat) :
    Nat → Nat → Nat → List Nat → Option (List Nat × Nat × Nat × Nat) :=
  Nat.rec (motive := fun _ => Nat → Nat → Nat → List Nat →
      Option (List Nat × Nat × Nat × Nat))
    (fun rem rf k acc => some (acc, rem, rf, k))
    (fun _ ih rem rf k acc =>
      if 100 * KB < rem ∧ 0 < rf then
        if mediumMax rem rf < 100 * KB then some (acc, rem, rf, k)
        else
          (randn g k (mediumMax rem rf - 100 * KB)).bind fun rk =>
            ih (rem - (rk.1 + 100 * KB)) (rf - 1) rk.2 (acc ++ [rk.1 + 100 * KB])
      else some (acc, rem, rf, k)) n

/-- maxSize of the small bucket loop (plan.go lines 97-103): the per-file
average capped at 100 KiB, then floored at 1 KiB. -/
def smallMax (rem rf : Nat) : Nat :=
  if (if rem / rf < 100 * KB then rem / rf else 100 * KB) < 1024 then 1024
  else if rem / rf < 100 * KB then rem / rf else 100 * KB

/-- The small bucket loop of CreatePlan (plan.go lines 96-116).  The loop
decrements remainingFiles on every pass, so it recurses on it directly; when
maxSize collapses to 1 KiB the final file absorbs all remaining size and Go
sets remainingFiles to 1 before the decrement, leaving both counters 0. -/
def smallLoop (g : Nat → Nat) (rf : Nat) :
    Nat → Nat → List Nat → Option (List Nat × Nat × Nat × Nat) :=
  Nat.rec (motive := fun _ => Nat → Nat → List Nat →
      Option (List Nat × Nat × Nat × Nat))
    (fun rem k acc => some (acc, rem, 0, k))
    (fun rf ih rem k acc =>
      if 1024 < rem then
        if smallMax rem (rf + 1) ≤ 1024 then some (acc ++ [rem], 0, 0, k)
        else
          (randn g k (smallMax rem (rf + 1) - 1024)).bind fun rk =>
            ih (rem - (rk.1 + 1024)) rk.2 (acc ++ [rk.1 + 1024])
      else some (acc, rem, rf + 1, k)) rf

/-- The remainder fold at the end of CreatePlan (plan.go lines 119-133). -/
def foldRemainder (p : Plan) (rem : Nat) : Plan :=
  if rem = 0 then p
  else if 100 * KB ≤ rem then { p with MediumFiles := p.MediumFiles ++ [rem] }
  else if p.SmallFiles = [] then p
  else if p.SmallFiles.getLast?.getD 0 + rem < 100 * KB then
    { p with
      SmallFiles := p.SmallFiles.dropLast ++ [p.SmallFiles.getLast?.getD 0 + rem] }
  else { p with SmallFiles := p.SmallFiles ++ [rem] }

/-- Stage 1 of CreatePlan (plan.go lines 24-47): the guarded very-large
bucket.  numVeryLarge is 1 + rand.Intn(3), capped at a quarter of the
remaining file count. -/
def vlStage (g : Nat → Nat) (totalSize targetFiles k0 : Nat) :
    Option (List Nat × Nat × Nat × Nat) :=
  if GB ≤ totalSize ∧ 10 < targetFiles then
    (randn g k0 3).bind fun rk =>
      veryLargeLoop g totalSize
        (if targetFiles / 4 < 1 + rk.1 then targetFiles / 4 else 1 + rk.1)
        totalSize targetFiles rk.2 []
  else some ([], totalSize, targetFiles, k0)

/-- Stage 2 of CreatePlan (plan.go lines 50-70): the guarded large bucket,
numLarge being a tenth of the remaining file count capped at 20. -/
def lgStage (g : Nat → Nat) (rem1 rf1 k1 : Nat) :
    Option (List Nat × Nat × Nat × Nat) :=
  if 10 < rf1 then
    largeLoop g (if 20 < rf1 / 10 then 20 else rf1 / 10) rem1 rf1 k1 []
  else some ([], rem1, rf1, k1)

/-- Stage 3 of CreatePlan (plan.go lines 73-93): the guarded medium bucket,
numMedium being a fifth of the remaining file count capped at 50. -/
def mdStage (g : Nat → Nat) (rem2 rf2 k2 : Nat) :
    Option (List Nat × Nat × Nat × Nat) :=
  if 5 < rf2 then
    mediumLoop g (if 50 < rf2 / 5 then 50 else rf2 / 5) rem2 rf2 k2 []
  else some ([], rem2, rf2, k2)

/-- mockfs.CreatePlan (plan.go lines 18-136) with the oracle index threaded
through; none marks the executions on which the Go code panics inside
rand.Int63n.  Each stage returns (bucket sizes, remainingSize,
remainingFiles, oracle index). -/
def createPlanK (g : Nat → Nat) (totalSize : Nat) (targetFiles : Nat)
    (k0 : Nat) : Option (Plan × Nat) :=
  (vlStage g totalSize targetFiles k0).bind fun s1 =>
    (lgStage g s1.2.1 s1.2.2.1 s1.2.2.2).bind fun s2 =>
      (mdStage g s2.2.1 s2.2.2.1 s2.2.2.2).bind fun s3 =>
        (smallLoop g s3.2.2.1 s3.2.1 s3.2.2.2 []).map fun s4 =>
          (foldRemainder (Plan.mk s1.1 s2.1 s3.1 s4.1) s4.2.1, s4.2.2.2)

/-- mockfs.CreatePlan as called from the outside (fresh oracle index). -/
def CreatePlan (g : Nat → Nat) (totalSize : Nat) (targetFiles : Nat) :
    Option Plan :=
  (createPlanK g totalSize targetFiles 0).map Prod.fst

theorem randn_some (g : Nat → Nat) (k n : Nat) (rk : Nat × Nat)
    (h : randn g k n = some rk) : rk.1 < n ∧ rk.2 = k + 1 := by
  unfold randn at h
  split at h
  · simp at h
  · simp only [Option.some.injEq] at h
    subst h
    exact ⟨Nat.mod_lt _ (Nat.pos_of_ne_zero (by assumption)), rfl⟩

theorem veryLargeLoop_zero (g : Nat → Nat) (t rem rf k : Nat) (acc : List Nat) :
    veryLargeLoop g t 0 rem rf k acc = some (acc, rem, rf, k) := rfl

theorem veryLargeLoop_succ (g : Nat → Nat) (t n rem rf k : Nat)
    (acc : List Nat) :
    veryLargeLoop g t (n + 1) rem rf k acc =
      if 512 * MB < rem ∧ 0 < rf then
        (randn g k (t / 2 - 512 * MB)).bind fun rk =>
          veryLargeLoop g t n (rem - vlClamp rem (rk.1 + 512 * MB)) (rf - 1)
            rk.2 (acc ++ [vlClamp rem (rk.1 + 512 * MB)])
      else some (acc, rem, rf, k) := rfl

theorem largeLoop_zero (g : Nat → Nat) (rem rf k : Nat) (acc : List Nat) :
    largeLoop g 0 rem rf k acc = some (acc, rem, rf, k) := rfl

theorem largeLoop_succ (g : Nat → Nat) (n rem rf k : Nat) (acc : List Nat) :
    largeLoop g (n + 1) rem rf k acc =
      if 10 * MB < rem ∧ 0 < rf then
        if largeMax rem rf < 10 * MB then some (acc, rem, rf, k)
        else
          (randn g k (largeMax rem rf - 10 * MB)).bind fun rk =>
            largeLoop g n (rem - (rk.1 + 10 * MB)) (rf - 1) rk.2
              (acc ++ [rk.1 + 10 * MB])
      else some (acc, rem, rf, k) := rfl

theorem mediumLoop_zero (g : Nat → Nat) (rem rf k : Nat) (acc : List Nat) :
    mediumLoop g 0 rem rf k acc = some (acc, rem, rf, k) := rfl

theorem mediumLoop_succ (g : Nat → Nat) (n rem rf k : Nat) (acc : List Nat) :
    mediumLoop g (n + 1) rem rf k acc =
      if 100 * KB < rem ∧ 0 < rf then
        if mediumMax rem rf < 100 * KB then some (acc, rem, rf, k)
        else
          (randn g k (mediumMax rem rf - 100 * KB)).bind fun rk =>
            mediumLoop g n (rem - (rk.1 + 100 * KB)) (rf - 1) rk.2
              (acc ++ [rk.1 + 100 * KB])
      else some (acc, rem, rf, k) := rfl

theorem smallLoop_zero (g : Nat → Nat) (rem k : Nat) (acc : List Nat) :
    smallLoop g 0 rem k acc = some (acc, rem, 0, k) := rfl

theorem smallLoop_succ (g : Nat → Nat) (rf rem k : Nat) (acc : List Nat) :
    smallLoop g (rf + 1) rem k acc =
      if 1024 < rem then
        if smallMax rem (rf + 1) ≤ 1024 then some (acc ++ [rem], 0, 0, k)
        else
          (randn g k (smallMax rem (rf + 1) - 1024)).bind fun rk =>
            smallLoop g rf (rem - (rk.1 + 1024)) rk.2 (acc ++ [rk.1 + 1024])
      else some (acc, rem, rf + 1, k) := rfl

theorem vlClamp_le (rem fs0 : Nat) (h : 512 * MB < rem) :
    vlClamp rem fs0 ≤ rem := by
  have hd : rem / 2 ≤ rem := Nat.div_le_self _ _
  unfold vlClamp
  split_ifs <;> omega

theorem vlClamp_ge (rem fs0 : Nat) : 512 * MB ≤ vlClamp rem fs0 := by
  unfold vlClamp
  split_ifs <;> omega

theorem largeMax_le_rem (rem rf : Nat) (h2 : 2 ≤ rf) :
    largeMax rem rf ≤ rem := by
  have hd : rem / rf ≤ rem := Nat.div_le_self _ _
  have hd2 : rem / rf ≤ rem / 2 := Nat.div_le_div_left h2 (by omega)
  have hm : rem / 2 * 2 ≤ rem := Nat.div_mul_le_self rem 2
  unfold largeMax
  split_ifs <;> omega

theorem mediumMax_le_rem (rem rf : Nat) (h2 : 2 ≤ rf) :
    mediumMax rem rf ≤ rem := by
  have hd : rem / rf ≤ rem := Nat.div_le_self _ _
  have hd2 : rem / rf ≤ rem / 2 := Nat.div_le_div_left h2 (by omega)
  have hm : rem / 2 * 2 ≤ rem := Nat.div_mul_le_self rem 2
  unfold mediumMax
  split_ifs <;> omega

theorem smallMax_le_rem (rem rf : Nat) (h : ¬ smallMax rem rf ≤ 1024) :
    smallMax rem rf ≤ rem := by
  have hd : rem / rf ≤ rem := Nat.div_le_self _ _
  unfold smallMax at *
  split_ifs at * <;> omega

theorem veryLargeLoop_sum (g : Nat → Nat) (t : Nat) :
    ∀ n rem rf k acc l rem2 rf2 k2,
      veryLargeLoop g t n rem rf k acc = some (l, rem2, rf2, k2) →
      l.sum + rem2 = acc.sum + rem := by
  intro n
  induction n with
  | zero =>
    intro rem rf k acc l rem2 rf2 k2 h
    rw [veryLargeLoop_zero] at h
    simp only [Option.some.injEq, Prod.mk.injEq] at h
    obtain ⟨h1, h2, -, -⟩ := h
    subst h1; subst h2; rfl
  | succ n ih =>
    intro rem rf k acc l rem2 rf2 k2 h
    rw [veryLargeLoop_succ] at h
    split at h
    case isTrue hg =>
      cases hr : randn g k (t / 2 - 512 * MB) with
      | none => rw [hr] at h; simp at h
      | some rk =>
        rw [hr] at h
        simp only [Option.some_bind] at h
        have hle := vlClamp_le rem (rk.1 + 512 * MB) hg.1
        have hsum := ih _ _ _ _ _ _ _ _ h
        rw [List.sum_append] at hsum
        simp only [List.sum_cons, List.sum_nil] at hsum
        omega
    case isFalse hg =>
      simp only [Option.some.injEq, Prod.mk.injEq] at h
      obtain ⟨h1, h2, -, -⟩ := h
      subst h1; subst h2; rfl

theorem largeLoop_sum (g : Nat → Nat) :
    ∀ n rem rf k acc l rem2 rf2 k2, n < rf →
      largeLoop g n rem rf k acc = some (l, rem2, rf2, k2) →
      l.sum + rem2 = acc.sum + rem := by
  intro n
  induction n with
  | zero =>
    intro rem rf k acc l rem2 rf2 k2 _ h
    rw [largeLoop_zero] at h
    simp only [Option.some.injEq, Prod.mk.injEq] at h
    obtain ⟨h1, h2, -, -⟩ := h
    subst h1; subst h2; rfl
  | succ n ih =>
    intro rem rf k acc l rem2 rf2 k2 hn h
    rw [largeLoop_succ] at h
    split at h
    case isTrue hg =>
      split at h
      case isTrue hbreak =>
        simp only [Option.some.injEq, Prod.mk.injEq] at h
        obtain ⟨h1, h2, -, -⟩ := h
        subst h1; subst h2; rfl
      case isFalse hbreak =>
        cases hr : randn g k (largeMax rem rf - 10 * MB) with
        | none => rw [hr] at h; simp at h
        | some rk =>
          rw [hr] at h
          simp only [Option.some_bind] at h
          obtain ⟨hrlt, -⟩ := randn_some g k _ rk hr
          have hle := largeMax_le_rem rem rf (by omega)
          have hsum := ih _ _ _ _ _ _ _ _ (by omega) h
          rw [List.sum_append] at hsum
          simp only [List.sum_cons, List.sum_nil] at hsum
          omega
    case isFalse hg =>
      simp only [Option.some.injEq, Prod.mk.injEq] at h
      obtain ⟨h1, h2, -, -⟩ := h
      subst h1; subst h2; rfl

theorem mediumLoop_sum (g : Nat → Nat) :
    ∀ n rem rf k acc l rem2 rf2 k2, n < rf →
      mediumLoop g n rem rf k acc = some (l, rem2, rf2, k2) →
      l.sum + rem2 = acc.sum + rem := by
  intro n
  induction n with
  | zero =>
    intro rem rf k acc l rem2 rf2 k2 _ h
    rw [mediumLoop_zero] at h
    simp only [Option.some.injEq, Prod.mk.injEq] at h
    obtain ⟨h1, h2, -, -⟩ := h
    subst h1; subst h2; rfl
  | succ n ih =>
    intro rem rf k acc l rem2 rf2 k2 hn h
    rw [mediumLoop_succ] at h
    split at h
    case isTrue hg =>
      split at h
      case isTrue hbreak =>
        simp only [Option.some.injEq, Prod.mk.injEq] at h
        obtain ⟨h1, h2, -, -⟩ := h
        subst h1; subst h2; rfl
      case isFalse hbreak =>
        cases hr : randn g k (mediumMax rem rf - 100 * KB) with
        | none => rw [hr] at h; simp at h
        | some rk =>
          rw [hr] at h
          simp only [Option.some_bind] at h
          obtain ⟨hrlt, -⟩ := randn_some g k _ rk hr
          have hle := mediumMax_le_rem rem rf (by omega)
          have hsum := ih _ _ _ _ _ _ _ _ (by omega) h
          rw [List.sum_append] at hsum
          simp only [List.sum_cons, List.sum_nil] at hsum
          omega
    case isFalse hg =>
      simp only [Option.some.injEq, Prod.mk.injEq] at h
      obtain ⟨h1, h2, -, -⟩ := h
      subst h1; subst h2; rfl

theorem smallLoop_sum (g : Nat → Nat) :
    ∀ rf rem k acc l rem2 rf2 k2,
      smallLoop g rf rem k acc = some (l, rem2, rf2, k2) →
      l.sum + rem2 = acc.sum + rem := by
  intro rf
  induction rf with
  | zero =>
    intro rem k acc l rem2 rf2 k2 h
    rw [smallLoop_zero] at h
    simp only [Option.some.injEq, Prod.mk.injEq] at h
    obtain ⟨h1, h2, -, -⟩ := h
    subst h1; subst h2; rfl
  | succ rf ih =>
    intro rem k acc l rem2 rf2 k2 h
    rw [smallLoop_succ] at h
    split at h
    case isTrue hrem =>
      split at h
      case isTrue hms =>
        simp only [Option.some.injEq, Prod.mk.injEq] at h
        obtain ⟨h1, h2, -, -⟩ := h
        subst h1; subst h2
        simp [List.sum_append]
      case isFalse hms =>
        cases hr : randn g k (smallMax rem (rf + 1) - 1024) with
        | none => rw [hr] at h; simp at h
        | some rk =>
          rw [hr] at h
          simp only [Option.some_bind] at h
          obtain ⟨hrlt, -⟩ := randn_some g k _ rk hr
          have hle := smallMax_le_rem rem (rf + 1) hms
          have hsum := ih _ _ _ _ _ _ _ h
          rw [List.sum_append] at hsum
          simp only [List.sum_cons, List.sum_nil] at hsum
          omega
    case isFalse hrem =>
      simp only [Option.some.injEq, Prod.mk.injEq] at h
      obtain ⟨h1, h2, -, -⟩ := h
      subst h1; subst h2; rfl

theorem vlStage_sum (g : Nat → Nat) (total tf k0 : Nat)
    (vl : List Nat) (rem1 rf1 k1 : Nat)
    (h : vlStage g total tf k0 = some (vl, rem1, rf1, k1)) :
    vl.sum + rem1 = total := by
  unfold vlStage at h
  split at h
  · rw [Option.bind_eq_some] at h
    obtain ⟨rk, -, h⟩ := h
    have := veryLargeLoop_sum g total _ _ _ _ _ _ _ _ _ h
    simpa using this
  · simp only [Option.some.injEq, Prod.mk.injEq] at h
    obtain ⟨h1, h2, -, -⟩ := h
    subst h1; subst h2; simp

theorem lgStage_sum (g : Nat → Nat) (rem1 rf1 k1 : Nat)
    (lg : List Nat) (rem2 rf2 k2 : Nat)
    (h : lgStage g rem1 rf1 k1 = some (lg, rem2, rf2, k2)) :
    lg.sum + rem2 = rem1 := by
  unfold lgStage at h
  split at h
  case isTrue hc =>
    have hdiv : rf1 / 10 < rf1 := Nat.div_lt_self (by omega) (by omega)
    have := largeLoop_sum g _ _ _ _ _ _ _ _ _ (by split <;> omega) h
    simpa using this
  case isFalse hc =>
    simp only [Option.some.injEq, Prod.mk.injEq] at h
    obtain ⟨h1, h2, -, -⟩ := h
    subst h1; subst h2; simp

theorem mdStage_sum (g : Nat → Nat) (rem2 rf2 k2 : Nat)
    (md : List Nat) (rem3 rf3 k3 : Nat)
    (h : mdStage g rem2 rf2 k2 = some (md, rem3, rf3, k3)) :
    md.sum + rem3 = rem2 := by
  unfold mdStage at h
  split at h
  case isTrue hc =>
    have hdiv : rf2 / 5 < rf2 := Nat.div_lt_self (by omega) (by omega)
    have := mediumLoop_sum g _ _ _ _ _ _ _ _ _ (by split <;> omega) h
    simpa using this
  case isFalse hc =>
    simp only [Option.some.injEq, Prod.mk.injEq] at h
    obtain ⟨h1, h2, -, -⟩ := h
    subst h1; subst h2; simp

theorem foldRemainder_sum (p : Plan) (rem : Nat) :
    planSum (foldRemainder p rem) = planSum p + rem ∨
      (foldRemainder p rem = p ∧ p.SmallFiles = [] ∧ 0 < rem ∧ rem < 100 * KB) := by
  unfold foldRemainder
  split_ifs with h1 h2 h3 h4
  · left; simp [h1]
  · left
    simp only [planSum, List.sum_append, List.sum_cons, List.sum_nil]
    omega
  · right
    exact ⟨rfl, h3, by omega, by omega⟩
  · left
    have hne : p.SmallFiles ≠ [] := h3
    have hgl : p.SmallFiles.getLast?.getD 0 = p.SmallFiles.getLast hne := by
      rw [List.getLast?_eq_getLast _ hne]; rfl
    have hsplit : p.SmallFiles.dropLast ++ [p.SmallFiles.getLast hne] =
        p.SmallFiles := List.dropLast_append_getLast hne
    have hsum : p.SmallFiles.dropLast.sum + p.SmallFiles.getLast hne =
        p.SmallFiles.sum := by
      conv_rhs => rw [← hsplit]
      simp [List.sum_append]
    simp only [planSum, List.sum_append, List.sum_cons, List.sum_nil, hgl]
    omega
  · left
    simp only [planSum, List.sum_append, List.sum_cons, List.sum_nil]
    omega
theorem foldRemainder_vl (p : Plan) (rem : Nat) :
    (foldRemainder p rem).VeryLargeFiles = p.VeryLargeFiles := by
  unfold foldRemainder
  split_ifs <;> rfl

theorem createPlanK_sum (g : Nat → Nat) (total tf k0 : Nat) (p : Plan)
    (kf : Nat) (h : createPlanK g total tf k0 = some (p, kf)) :
    planSum p = total ∨
      (p.SmallFiles = [] ∧ planSum p < total ∧ total < planSum p + 100 * KB) := by
  unfold createPlanK at h
  simp only [Option.bind_eq_some, Option.map_eq_some'] at h
  obtain ⟨s1, h1, s2, h2, s3, h3, s4, h4, heq⟩ := h
  obtain ⟨vl, rem1, rf1, k1⟩ := s1
  obtain ⟨lg, rem2, rf2, k2⟩ := s2
  obtain ⟨md, rem3, rf3, k3⟩ := s3
  obtain ⟨sm, rem4, rf4, k4⟩ := s4
  have hsum1 := vlStage_sum g total tf k0 vl rem1 rf1 k1 h1
  have hsum2 := lgStage_sum g rem1 rf1 k1 lg rem2 rf2 k2 h2
  have hsum3 := mdStage_sum g rem2 rf2 k2 md rem3 rf3 k3 h3
  have hsum4 := smallLoop_sum g rf3 rem3 k3 [] sm rem4 rf4 k4 h4
  simp only [List.sum_nil, Nat.zero_add] at hsum4
  have hp : p = foldRemainder (Plan.mk vl lg md sm) rem4 := by
    have := congrArg Prod.fst heq
    simpa using this.symm
  have hmk : planSum (Plan.mk vl lg md sm) + rem4 = total := by
    simp only [planSum]
    omega
  rcases foldRemainder_sum (Plan.mk vl lg md sm) rem4 with hL | ⟨hid, hsm, hpos, hlt⟩
  · left
    rw [hp, hL]
    omega
  · right
    rw [hp, hid]
    refine ⟨hsm, ?_, ?_⟩ <;> omega

/-- Claim C1 (amended): whenever CreatePlan returns a plan, the emitted sizes
sum exactly to totalSize, unless the plan contains no small files and the
residue is positive and below 100 KiB, in which case that residue is dropped
and the sum falls short of totalSize by less than 100 KiB. -/
theorem createPlan_sum (g : Nat → Nat) (total tf : Nat) (p : Plan)
    (h : CreatePlan g total tf = some p) :
    planSum p = total ∨
      (p.SmallFiles = [] ∧ planSum p < total ∧ total < planSum p + 100 * KB) := by
  unfold CreatePlan at h
  rw [Option.map_eq_some'] at h
  obtain ⟨⟨p', kf⟩, h1, h2⟩ := h
  have hp : p' = p := h2
  subst hp
  exact createPlanK_sum g total tf 0 p' kf h1

/-- Witness for the amended claim C1 at total = 500, targetFiles = 1, where
the planner drops the 500-byte residue (the right disjunct). -/
theorem createPlan_sum_witness :
    planSum (Plan.mk [] [] [] []) = 500 ∨
      ((Plan.mk [] [] [] []).SmallFiles = [] ∧
        planSum (Plan.mk [] [] [] []) < 500 ∧
        500 < planSum (Plan.mk [] [] [] []) + 100 * KB) :=
  createPlan_sum (fun _ => 0) 500 1 (Plan.mk [] [] [] []) rfl

/-- Claim C1 counterexample: at total = 500 bytes with targetFiles = 1 the
planner returns the empty plan, whose sizes sum to 0, not 500 — the claim
that the emitted sizes always sum exactly to the requested total is false. -/
theorem createPlan_sum_cex :
    CreatePlan (fun _ => 0) 500 1 = some (Plan.mk [] [] [] []) ∧
      planSum (Plan.mk [] [] [] []) ≠ 500 := by
  constructor
  · rfl
  · decide

/-- Claim C2: at totalSize of exactly 1 GiB with more than 10 target files,
maxVeryLargeSize − minVeryLargeSize = 0 and Go's rand.Int63n(0) panics
(modelled as none): the planner does not return a plan for every input. -/
theorem createPlan_panic_1GiB : CreatePlan (fun _ => 0) GB 11 = none := by
  rfl

/-- Claim C6 counterexample: at totalSize of exactly 1 GiB (≥ 1 GiB) and
targetFiles = 41 (> 40) the planner panics in rand.Int63n(0) and produces no
plan at all, so no plan containing a very-large entry is produced. -/
theorem createPlan_veryLarge_cex : CreatePlan (fun _ => 0) GB 41 = none := by
  rfl
theorem veryLargeLoop_acc (g : Nat → Nat) (t : Nat) :
    ∀ n rem rf k acc out, veryLargeLoop g t n rem rf k acc = some out →
      ∃ tl, out.1 = acc ++ tl ∧ ∀ x ∈ tl, 512 * MB ≤ x := by
  intro n
  induction n with
  | zero =>
    intro rem rf k acc out h
    rw [veryLargeLoop_zero] at h
    simp only [Option.some.injEq] at h
    subst h
    exact ⟨[], by simp, by simp⟩
  | succ n ih =>
    intro rem rf k acc out h
    rw [veryLargeLoop_succ] at h
    split at h
    case isTrue hg =>
      cases hr : randn g k (t / 2 - 512 * MB) with
      | none => rw [hr] at h; simp at h
      | some rk =>
        rw [hr] at h
        simp only [Option.some_bind] at h
        obtain ⟨tl, htl, hall⟩ := ih _ _ _ _ _ h
        refine ⟨vlClamp rem (rk.1 + 512 * MB) :: tl, ?_, ?_⟩
        · simpa using htl
        · intro x hx
          rcases List.mem_cons.mp hx with hx | hx
          · subst hx; exact vlClamp_ge _ _
          · exact hall x hx
    case isFalse hg =>
      simp only [Option.some.injEq] at h
      subst h
      exact ⟨[], by simp, by simp⟩

/-- Claim C6 (amended): whenever CreatePlan returns a plan, (a) for
totalSize ≥ 1 GiB and targetFiles > 40 that plan contains a very-large entry
of at least 512 MiB, and (b) for totalSize < 1 GiB it contains no very-large
entries at all. -/
theorem createPlan_veryLarge (g : Nat → Nat) (total tf : Nat) (p : Plan)
    (h : CreatePlan g total tf = some p) :
    (GB ≤ total → 40 < tf → ∃ x ∈ p.VeryLargeFiles, 512 * MB ≤ x) ∧
      (total < GB → p.VeryLargeFiles = []) := by
  unfold CreatePlan at h
  rw [Option.map_eq_some'] at h
  obtain ⟨⟨p', kf⟩, h, h2⟩ := h
  have hp : p' = p := h2
  subst hp
  unfold createPlanK at h
  simp only [Option.bind_eq_some, Option.map_eq_some'] at h
  obtain ⟨s1, h1, s2, h2, s3, h3, s4, h4, heq⟩ := h
  obtain ⟨vl, rem1, rf1, k1⟩ := s1
  obtain ⟨lg, rem2, rf2, k2⟩ := s2
  obtain ⟨md, rem3, rf3, k3⟩ := s3
  obtain ⟨sm, rem4, rf4, k4⟩ := s4
  have hpvl : p'.VeryLargeFiles = vl := by
    have := congrArg Prod.fst heq
    simp only at this
    rw [← this, foldRemainder_vl]
  constructor
  · intro hGB htf
    unfold vlStage at h1
    rw [if_pos ⟨hGB, by omega⟩] at h1
    rw [Option.bind_eq_some] at h1
    obtain ⟨rk, -, hloop⟩ := h1
    have hMB : MB = 1048576 := rfl
    have hGBval : GB = 1073741824 := rfl
    generalize hnvd : (if tf / 4 < 1 + rk.1 then tf / 4 else 1 + rk.1) = nv
      at hloop
    have hnv : 0 < nv := by
      rw [← hnvd]
      have h4 : 10 ≤ tf / 4 := by omega
      split <;> omega
    obtain ⟨m, hm⟩ : ∃ m, nv = m + 1 := ⟨nv - 1, by omega⟩
    rw [hm] at hloop
    rw [veryLargeLoop_succ] at hloop
    rw [if_pos ⟨by omega, by omega⟩] at hloop
    cases hr : randn g rk.2 (total / 2 - 512 * MB) with
    | none => rw [hr] at hloop; simp at hloop
    | some rk2 =>
      rw [hr] at hloop
      simp only [Option.some_bind] at hloop
      obtain ⟨tl, htl, -⟩ := veryLargeLoop_acc g total _ _ _ _ _ _ hloop
      simp only [List.nil_append] at htl
      refine ⟨vlClamp total (rk2.1 + 512 * MB), ?_, vlClamp_ge _ _⟩
      rw [hpvl, htl]
      simp
  · intro hlt
    unfold vlStage at h1
    rw [if_neg (by omega)] at h1
    simp only [Option.some.injEq, Prod.mk.injEq] at h1
    rw [hpvl, ← h1.1]
/-- Witness for the amended claim C6 at total = 2 GiB, targetFiles = 41, the
zero oracle: the returned plan carries one 512 MiB very-large entry. -/
theorem createPlan_veryLarge_witness :
    (GB ≤ 2 * GB → 40 < 41 →
      ∃ x ∈ (Plan.mk [536870912]
          [10485760, 10485760, 10485760, 10485760]
          [102400, 102400, 102400, 102400, 102400, 102400, 102400, 1567923200]
          (List.replicate 29 1024)).VeryLargeFiles, 512 * MB ≤ x) ∧
      (2 * GB < GB →
        (Plan.mk [536870912]
          [10485760, 10485760, 10485760, 10485760]
          [102400, 102400, 102400, 102400, 102400, 102400, 102400, 1567923200]
          (List.replicate 29 1024)).VeryLargeFiles = []) :=
  createPlan_veryLarge (fun _ => 0) (2 * GB) 41
    (Plan.mk [536870912]
      [10485760, 10485760, 10485760, 10485760]
      [102400, 102400, 102400, 102400, 102400, 102400, 102400, 1567923200]
      (List.replicate 29 1024)) rfl
/-- Two-digit decimal rendering of size/unit, rounded to the nearest
hundredth: models the %.2f formatting of size.Format (float64 rounding is
replaced by rounding of the exact quotient; no claim depends on the digits). -/
def fmt2 (size unit : Nat) : String :=
  toString ((size * 100 + unit / 2) / unit / 100) ++ "." ++
    (if (size * 100 + unit / 2) / unit % 100 < 10 then "0" else "") ++
    toString ((size * 100 + unit / 2) / unit % 100)

/-- size.Format (parser.go lines 97-108): largest reached unit with two
decimals, plain byte count below 1 KiB. -/
def formatSize (size : Nat) : String :=
  if GB ≤ size then fmt2 size GB ++ " GB"
  else if MB ≤ size then fmt2 size MB ++ " MB"
  else if KB ≤ size then fmt2 size KB ++ " KB"
  else toString size ++ " bytes"

/-- The chunked write loop of createSingleFile / createLayerFile: the sizes
of the successive writes, each min(remaining, 10 MiB).  The loop shrinks
remaining by at least 1 per pass, so the byte count itself bounds the pass
count and serves as structural fuel. -/
def chunkSizesAux (f : Nat) : Nat → List Nat :=
  Nat.rec (motive := fun _ => Nat → List Nat) (fun _ => [])
    (fun _ ih rem =>
      if rem = 0 then []
      else (if 10 * MB < rem then 10 * MB else rem) ::
        ih (rem - (if 10 * MB < rem then 10 * MB else rem))) f

/-- mockfs createSingleFile (file at parser_test.go lines 300-333): the trace
of chunk sizes it writes for a file of fileSize bytes (the chunk payloads are
rand bytes, not modelled; the claims concern the byte counts). -/
def createSingleFile (fileSize : Nat) : List Nat := chunkSizesAux fileSize fileSize

/-- An entry materialized in the working tree: a leaf file (directory path
segments, file name, size) or a directory, relative to the unit root. -/
inductive FsEntry where
  | file (dirs : List String) (name : String) (fileSize : Nat)
  | dir (dirs : List String)
deriving DecidableEq, Repr

/-- The sizes of the file entries, in order. -/
def entryFiles (es : List FsEntry) : List Nat :=
  es.filterMap fun e =>
    match e with
    | .file _ _ sz => some sz
    | .dir _ => none

/-- Directory depth of an entry below the unit root. -/
def entryDepth : FsEntry → Nat
  | .file dirs _ _ => dirs.length
  | .dir dirs => dirs.length

/-- Leaf files created at the current level (parser_test.go lines 233-242):
one per size, named Format(size) + "-file". -/
def mkLeaves (files : List Nat) : List FsEntry :=
  files.map fun fs => FsEntry.file [] (formatSize fs ++ "-file") fs

/-- Relocate an entry below a subdirectory. -/
def pushDir (d : String) : FsEntry → FsEntry
  | .file dirs name sz => .file (d :: dirs) name sz
  | .dir dirs => .dir (d :: dirs)

/-- All sizes of a plan flattened in bucket order (parser_test.go lines
211-215). -/
def planFiles (p : Plan) : List Nat :=
  p.VeryLargeFiles ++ p.LargeFiles ++ p.MediumFiles ++ p.SmallFiles

/-- One swap of the Fisher-Yates pass (parser_test.go line 220). -/
def swapL (l : List Nat) (i j : Nat) : List Nat :=
  (l.set i (l.getD j 0)).set j (l.getD i 0)

/-- The shuffle of createFilesFromPlan (parser_test.go lines 218-221):
for i in range, j := rand.Intn(i+1) (bound i+1 ≥ 1, never panics), swap. -/
def shuffle (g : Nat → Nat) (l : List Nat) (k : Nat) : List Nat × Nat :=
  (List.range l.length).foldl
    (fun s i => (swapL s.1 i (g s.2 % (i + 1)), s.2 + 1)) (l, k)

/-- Re-bucketing of a subdirectory's sizes (parser_test.go lines 273-286). -/
def categorize (l : List Nat) : Plan :=
  l.foldr
    (fun s p =>
      if 512 * MB ≤ s then { p with VeryLargeFiles := s :: p.VeryLargeFiles }
      else if 10 * MB ≤ s then { p with LargeFiles := s :: p.LargeFiles }
      else if 100 * KB ≤ s then { p with MediumFiles := s :: p.MediumFiles }
      else { p with SmallFiles := s :: p.SmallFiles })
    (Plan.mk [] [] [] [])

/-- filesAtThisLevel (parser_test.go lines 224-227): a third of the files,
or all of them when that third is zero (the maxDepth case is the recursion's
base).  -/
def treeFat (total : Nat) : Nat := if total / 3 < 1 then total else total / 3

/-- numSubdirs (parser_test.go lines 248-251): 2 + rand.Intn(3), capped at
the number of remaining files. -/
def numSubdirs (remLen r : Nat) : Nat :=
  if remLen < 2 + r % 3 then remLen else 2 + r % 3

/-- The contiguous slice of the remaining shuffled list handed to
subdirectory i (parser_test.go lines 263-270): the last subdirectory absorbs
the division remainder. -/
def subdirSlice (remaining : List Nat) (ns fps i : Nat) : List Nat :=
  if i = ns - 1 then remaining.drop (i * fps)
  else (remaining.drop (i * fps)).take fps

/-- One pass of the subdirectory loop (parser_test.go lines 254-293): create
dirI, and when startIdx is in range recurse on the re-bucketed slice,
relocating the resulting entries below dirI. -/
def subdirStep (rec : Plan → Nat → List FsEntry × Nat) (remaining : List Nat)
    (ns fps : Nat) (s : List FsEntry × Nat) (i : Nat) : List FsEntry × Nat :=
  if i * fps < remaining.length then
    (s.1 ++ FsEntry.dir ["dir" ++ toString (i + 1)] ::
        ((rec (categorize (subdirSlice remaining ns fps i)) s.2).1.map
          (pushDir ("dir" ++ toString (i + 1)))),
      (rec (categorize (subdirSlice remaining ns fps i)) s.2).2)
  else (s.1 ++ [FsEntry.dir ["dir" ++ toString (i + 1)]], s.2)

/-- The subdirectory block of createFilesFromPlan (parser_test.go lines
245-294), entered below maxDepth: skipped when no files remain, else one
rand.Intn(3) draw fixes numSubdirs and the loop distributes the slices. -/
def treeSubdirs (rec : Plan → Nat → List FsEntry × Nat) (g : Nat → Nat)
    (remaining : List Nat) (k1 : Nat) (acc : List FsEntry) :
    List FsEntry × Nat :=
  if remaining.length = 0 then (acc, k1)
  else
    (List.range (numSubdirs remaining.length (g k1))).foldl
      (subdirStep rec remaining (numSubdirs remaining.length (g k1))
        (remaining.length / numSubdirs remaining.length (g k1)))
      (acc, k1 + 1)

/-- mockfs createFilesFromPlan (parser_test.go lines 203-297), recursing on
fuel = maxDepth − currentDepth (the only uses of the two depth arguments in
the source are the comparison currentDepth ≥ maxDepth and currentDepth+1).
Returns the entries created under the current directory and the advanced
oracle index.  At fuel 0 every file is a leaf here; otherwise a third of the
shuffled files stay here and the rest go to 2-4 subdirectories. -/
def createFilesFromPlan (g : Nat → Nat) (fuel : Nat) :
    Plan → Nat → List FsEntry × Nat :=
  Nat.rec (motive := fun _ => Plan → Nat → List FsEntry × Nat)
    (fun plan k =>
      if planCount plan = 0 then ([], k)
      else
        (mkLeaves (shuffle g (planFiles plan) k).1,
          (shuffle g (planFiles plan) k).2))
    (fun _ ih plan k =>
      if planCount plan = 0 then ([], k)
      else
        treeSubdirs ih g
          ((shuffle g (planFiles plan) k).1.drop (treeFat (planCount plan)))
          (shuffle g (planFiles plan) k).2
          (mkLeaves
            ((shuffle g (planFiles plan) k).1.take (treeFat (planCount plan)))))
    fuel

/-- mockfs.Create (file at parser_test.go lines 178-200): derives the target
file count when 0 was passed (size/10 MiB clamped to [5,1000]), plans, then
builds the tree. -/
def Create (g : Nat → Nat) (layerSize maxDepth targetFiles : Nat) :
    Option (List FsEntry × Nat) :=
  (createPlanK g layerSize
      (if targetFiles = 0 then
        (if 1000 < (if layerSize / (10 * MB) < 5 then 5 else layerSize / (10 * MB))
          then 1000
          else (if layerSize / (10 * MB) < 5 then 5 else layerSize / (10 * MB)))
        else targetFiles)
      0).map
    fun pk => createFilesFromPlan g maxDepth pk.1 pk.2

theorem getD_set_self (l : List Nat) :
    ∀ i x, i < l.length → (l.set i x).getD i 0 = x := by
  induction l with
  | nil => intro i x h; simp at h
  | cons a t ih =>
    intro i x h
    cases i with
    | zero => rfl
    | succ i => exact ih i x (by simpa using h)

theorem getD_set_other (l : List Nat) :
    ∀ i j x, i ≠ j → (l.set i x).getD j 0 = l.getD j 0 := by
  induction l with
  | nil => intro i j x _; rfl
  | cons a t ih =>
    intro i j x hne
    cases i with
    | zero =>
      cases j with
      | zero => exact absurd rfl hne
      | succ j => rfl
    | succ i =>
      cases j with
      | zero => rfl
      | succ j => exact ih i j x (by omega)

theorem sum_set (l : List Nat) :
    ∀ i x, i < l.length → (l.set i x).sum + l.getD i 0 = l.sum + x := by
  induction l with
  | nil => intro i x h; simp at h
  | cons a t ih =>
    intro i x h
    cases i with
    | zero => simp [List.sum_cons]; omega
    | succ i =>
      have := ih i x (by simpa using h)
      simp only [List.set, List.sum_cons, List.getD_cons_succ]
      omega

theorem swapL_length (l : List Nat) (i j : Nat) :
    (swapL l i j).length = l.length := by
  simp [swapL]

theorem swapL_sum (l : List Nat) (i j : Nat) (hi : i < l.length)
    (hj : j < l.length) : (swapL l i j).sum = l.sum := by
  have h1 := sum_set l i (l.getD j 0) hi
  have h2 := sum_set (l.set i (l.getD j 0)) j (l.getD i 0)
    (by simpa using hj)
  have h3 : (l.set i (l.getD j 0)).getD j 0 = l.getD j 0 := by
    rcases eq_or_ne i j with he | hne
    · subst he; exact getD_set_self l i (l.getD i 0) hi
    · exact getD_set_other l i j (l.getD j 0) hne
  unfold swapL
  omega

theorem shuffleFold (g : Nat → Nat) :
    ∀ (idxs : List Nat) (s : List Nat) (k : Nat), (∀ i ∈ idxs, i < s.length) →
      ((idxs.foldl (fun t i => (swapL t.1 i (g t.2 % (i + 1)), t.2 + 1))
          (s, k)).1.length = s.length ∧
        (idxs.foldl (fun t i => (swapL t.1 i (g t.2 % (i + 1)), t.2 + 1))
          (s, k)).1.sum = s.sum) := by
  intro idxs
  induction idxs with
  | nil => intro s k _; exact ⟨rfl, rfl⟩
  | cons i rest ih =>
    intro s k hmem
    simp only [List.foldl_cons]
    have hi : i < s.length := hmem i (by simp)
    have hj : g k % (i + 1) < s.length := by
      have := Nat.mod_lt (g k) (show 0 < i + 1 by omega)
      omega
    have hlen := swapL_length s i (g k % (i + 1))
    have hsum := swapL_sum s i (g k % (i + 1)) hi hj
    have hrec := ih (swapL s i (g k % (i + 1))) (k + 1)
      (fun x hx => by rw [hlen]; exact hmem x (List.mem_cons_of_mem _ hx))
    exact ⟨by rw [hrec.1, hlen], by rw [hrec.2, hsum]⟩

theorem shuffle_length (g : Nat → Nat) (l : List Nat) (k : Nat) :
    (shuffle g l k).1.length = l.length :=
  (shuffleFold g (List.range l.length) l k
    (fun _ hi => List.mem_range.mp hi)).1

theorem shuffle_sum (g : Nat → Nat) (l : List Nat) (k : Nat) :
    (shuffle g l k).1.sum = l.sum :=
  (shuffleFold g (List.range l.length) l k
    (fun _ hi => List.mem_range.mp hi)).2

theorem categorize_count (l : List Nat) : planCount (categorize l) = l.length := by
  induction l with
  | nil => rfl
  | cons s t ih =>
    simp only [categorize, List.foldr_cons] at *
    split_ifs <;> simp only [planCount] at * <;> simp <;> omega

theorem categorize_sum (l : List Nat) : planSum (categorize l) = l.sum := by
  induction l with
  | nil => rfl
  | cons s t ih =>
    simp only [categorize, List.foldr_cons] at *
    split_ifs <;> simp only [planSum] at * <;> simp <;> omega

theorem planFiles_length (p : Plan) : (planFiles p).length = planCount p := by
  simp [planFiles, planCount]
  omega

theorem planFiles_sum (p : Plan) : (planFiles p).sum = planSum p := by
  simp [planFiles, planSum, List.sum_append]
  omega

theorem planCount_zero_files (p : Plan) (h : planCount p = 0) :
    planFiles p = [] := by
  have := planFiles_length p
  rw [h] at this
  exact List.length_eq_zero.mp this

theorem planCount_zero_sum (p : Plan) (h : planCount p = 0) : planSum p = 0 := by
  rw [← planFiles_sum, planCount_zero_files p h]
  rfl

theorem entryFiles_append (a b : List FsEntry) :
    entryFiles (a ++ b) = entryFiles a ++ entryFiles b := by
  simp [entryFiles]

theorem entryFiles_mkLeaves (l : List Nat) : entryFiles (mkLeaves l) = l := by
  induction l with
  | nil => rfl
  | cons s t ih => simpa [mkLeaves, entryFiles, List.filterMap_cons] using ih

theorem entryFiles_dir (d : List String) : entryFiles [FsEntry.dir d] = [] := rfl

theorem entryFiles_push (d : String) (es : List FsEntry) :
    entryFiles (es.map (pushDir d)) = entryFiles es := by
  induction es with
  | nil => rfl
  | cons e t ih =>
    cases e <;> simpa [pushDir, entryFiles, List.filterMap_cons] using ih

theorem entryDepth_push (d : String) (e : FsEntry) :
    entryDepth (pushDir d e) = entryDepth e + 1 := by
  cases e <;> rfl

theorem mkLeaves_depth (l : List Nat) (e : FsEntry) (h : e ∈ mkLeaves l) :
    entryDepth e = 0 := by
  obtain ⟨fs, -, rfl⟩ := List.mem_map.mp h
  rfl

theorem mkLeaves_name (l : List Nat) (dirs : List String) (name : String)
    (sz : Nat) (h : FsEntry.file dirs name sz ∈ mkLeaves l) :
    name = formatSize sz ++ "-file" := by
  obtain ⟨fs, -, heq⟩ := List.mem_map.mp h
  cases heq
  rfl

theorem push_file_mem (d : String) (es : List FsEntry) (dirs : List String)
    (name : String) (sz : Nat)
    (h : FsEntry.file dirs name sz ∈ es.map (pushDir d)) :
    ∃ dirs2, FsEntry.file dirs2 name sz ∈ es := by
  obtain ⟨e, he, heq⟩ := List.mem_map.mp h
  cases e with
  | file d2 n2 s2 =>
    simp only [pushDir, FsEntry.file.injEq] at heq
    exact ⟨d2, by rw [heq.2.1, heq.2.2] at he; exact he⟩
  | dir d2 => simp [pushDir] at heq

theorem subdirSlice_nil (remaining : List Nat) (ns fps i : Nat)
    (h : ¬ i * fps < remaining.length) :
    subdirSlice remaining ns fps i = [] := by
  have hd : remaining.drop (i * fps) = [] :=
    List.drop_eq_nil_of_le (by omega)
  unfold subdirSlice
  split_ifs <;> simp [hd]

theorem frontJoin (l : List Nat) (fps : Nat) :
    ∀ n, ((List.range n).map (fun i => (l.drop (i * fps)).take fps)).flatten =
      l.take (n * fps) := by
  intro n
  induction n with
  | zero => simp
  | succ n ih =>
    rw [List.range_succ, List.map_append, List.flatten_append, ih]
    simp only [List.map_cons, List.map_nil, List.flatten_cons, List.flatten_nil,
      List.append_nil]
    rw [Nat.succ_mul, List.take_add]

theorem slicesJoin (remaining : List Nat) (ns fps : Nat) (hns : 0 < ns) :
    ((List.range ns).map (subdirSlice remaining ns fps)).flatten = remaining := by
  obtain ⟨m, rfl⟩ : ∃ m, ns = m + 1 := ⟨ns - 1, by omega⟩
  rw [List.range_succ, List.map_append, List.flatten_append]
  have hfront : (List.range m).map (subdirSlice remaining (m + 1) fps) =
      (List.range m).map (fun i => (remaining.drop (i * fps)).take fps) := by
    apply List.map_congr_left
    intro i hi
    have hne : i ≠ m := by
      have := List.mem_range.mp hi
      omega
    simp [subdirSlice, hne]
  rw [hfront, frontJoin]
  have hlast : subdirSlice remaining (m + 1) fps m = remaining.drop (m * fps) := by
    simp [subdirSlice]
  simp [hlast, List.take_append_drop]

theorem slices_length (remaining : List Nat) (ns fps : Nat) (hns : 0 < ns) :
    ((List.range ns).map
      (fun i => (subdirSlice remaining ns fps i).length)).sum =
      remaining.length := by
  have := congrArg List.length (slicesJoin remaining ns fps hns)
  rw [List.length_flatten] at this
  simpa [List.map_map, Function.comp] using this

theorem slices_sum (remaining : List Nat) (ns fps : Nat) (hns : 0 < ns) :
    ((List.range ns).map (fun i => (subdirSlice remaining ns fps i).sum)).sum =
      remaining.sum := by
  have := congrArg List.sum (slicesJoin remaining ns fps hns)
  rw [List.sum_flatten] at this
  simpa [List.map_map, Function.comp] using this
theorem createFilesFromPlan_zero (g : Nat → Nat) (plan : Plan) (k : Nat) :
    createFilesFromPlan g 0 plan k =
      if planCount plan = 0 then ([], k)
      else
        (mkLeaves (shuffle g (planFiles plan) k).1,
          (shuffle g (planFiles plan) k).2) := rfl

theorem createFilesFromPlan_succ (g : Nat → Nat) (f : Nat) (plan : Plan)
    (k : Nat) :
    createFilesFromPlan g (f + 1) plan k =
      if planCount plan = 0 then ([], k)
      else
        treeSubdirs (createFilesFromPlan g f) g
          ((shuffle g (planFiles plan) k).1.drop (treeFat (planCount plan)))
          (shuffle g (planFiles plan) k).2
          (mkLeaves
            ((shuffle g (planFiles plan) k).1.take (treeFat (planCount plan)))) :=
  rfl

theorem subdirFold_spec (rec : Plan → Nat → List FsEntry × Nat) (f : Nat)
    (remaining : List Nat) (ns fps : Nat)
    (hLen : ∀ plan k, (entryFiles (rec plan k).1).length = planCount plan)
    (hSum : ∀ plan k, (entryFiles (rec plan k).1).sum = planSum plan)
    (hDepth : ∀ plan k e, e ∈ (rec plan k).1 → entryDepth e ≤ f)
    (hName : ∀ plan k dirs name sz,
      FsEntry.file dirs name sz ∈ (rec plan k).1 →
        name = formatSize sz ++ "-file") :
    ∀ (idxs : List Nat) (acc : List FsEntry) (k : Nat),
      (entryFiles ((idxs.foldl (subdirStep rec remaining ns fps)
            (acc, k)).1)).length =
          (entryFiles acc).length +
            ((idxs.map fun i => (subdirSlice remaining ns fps i).length).sum) ∧
      (entryFiles ((idxs.foldl (subdirStep rec remaining ns fps)
            (acc, k)).1)).sum =
          (entryFiles acc).sum +
            ((idxs.map fun i => (subdirSlice remaining ns fps i).sum).sum) ∧
      ((∀ e ∈ acc, entryDepth e ≤ f + 1) →
        ∀ e ∈ (idxs.foldl (subdirStep rec remaining ns fps) (acc, k)).1,
          entryDepth e ≤ f + 1) ∧
      ((∀ dirs name sz, FsEntry.file dirs name sz ∈ acc →
          name = formatSize sz ++ "-file") →
        ∀ dirs name sz,
          FsEntry.file dirs name sz ∈
            (idxs.foldl (subdirStep rec remaining ns fps) (acc, k)).1 →
            name = formatSize sz ++ "-file") := by
  intro idxs
  induction idxs with
  | nil =>
    intro acc k
    exact ⟨by simp, by simp, fun h => h, fun h => h⟩
  | cons i rest ih =>
    intro acc k
    simp only [List.foldl_cons, List.map_cons, List.sum_cons]
    by_cases hg : i * fps < remaining.length
    · have hstep : subdirStep rec remaining ns fps (acc, k) i =
          (acc ++ FsEntry.dir ["dir" ++ toString (i + 1)] ::
              ((rec (categorize (subdirSlice remaining ns fps i)) k).1.map
                (pushDir ("dir" ++ toString (i + 1)))),
            (rec (categorize (subdirSlice remaining ns fps i)) k).2) := by
        unfold subdirStep
        rw [if_pos hg]
      rw [hstep]
      have hEF : entryFiles
          (acc ++ FsEntry.dir ["dir" ++ toString (i + 1)] ::
            ((rec (categorize (subdirSlice remaining ns fps i)) k).1.map
              (pushDir ("dir" ++ toString (i + 1))))) =
          entryFiles acc ++
            entryFiles (rec (categorize (subdirSlice remaining ns fps i)) k).1 := by
        rw [entryFiles_append]
        congr 1
        rw [show FsEntry.dir ["dir" ++ toString (i + 1)] ::
            ((rec (categorize (subdirSlice remaining ns fps i)) k).1.map
              (pushDir ("dir" ++ toString (i + 1)))) =
            [FsEntry.dir ["dir" ++ toString (i + 1)]] ++
              ((rec (categorize (subdirSlice remaining ns fps i)) k).1.map
                (pushDir ("dir" ++ toString (i + 1)))) from rfl]
        rw [entryFiles_append, entryFiles_dir, entryFiles_push, List.nil_append]
      have hL1 : (entryFiles
          (rec (categorize (subdirSlice remaining ns fps i)) k).1).length =
          (subdirSlice remaining ns fps i).length := by
        rw [hLen, categorize_count]
      have hS1 : (entryFiles
          (rec (categorize (subdirSlice remaining ns fps i)) k).1).sum =
          (subdirSlice remaining ns fps i).sum := by
        rw [hSum, categorize_sum]
      obtain ⟨iL, iS, iD, iN⟩ := ih
        (acc ++ FsEntry.dir ["dir" ++ toString (i + 1)] ::
          ((rec (categorize (subdirSlice remaining ns fps i)) k).1.map
            (pushDir ("dir" ++ toString (i + 1)))))
        (rec (categorize (subdirSlice remaining ns fps i)) k).2
      refine ⟨?_, ?_, ?_, ?_⟩
      · rw [iL, hEF, List.length_append, hL1]
        omega
      · rw [iS, hEF, List.sum_append, hS1]
        omega
      · intro hacc
        apply iD
        intro e he
        rcases List.mem_append.mp he with he | he
        · exact hacc e he
        · rcases List.mem_cons.mp he with he | he
          · subst he; simp [entryDepth]
          · obtain ⟨e2, he2, rfl⟩ := List.mem_map.mp he
            rw [entryDepth_push]
            have := hDepth _ _ e2 he2
            omega
      · intro hacc
        apply iN
        intro dirs name sz hmem
        rcases List.mem_append.mp hmem with hmem | hmem
        · exact hacc dirs name sz hmem
        · rcases List.mem_cons.mp hmem with hmem | hmem
          · simp at hmem
          · obtain ⟨dirs2, hmem2⟩ := push_file_mem _ _ _ _ _ hmem
            exact hName _ _ dirs2 name sz hmem2
    · have hstep : subdirStep rec remaining ns fps (acc, k) i =
          (acc ++ [FsEntry.dir ["dir" ++ toString (i + 1)]], k) := by
        unfold subdirStep
        rw [if_neg hg]
      rw [hstep]
      have hnil := subdirSlice_nil remaining ns fps i hg
      have hEF : entryFiles (acc ++ [FsEntry.dir ["dir" ++ toString (i + 1)]]) =
          entryFiles acc := by
        rw [entryFiles_append, entryFiles_dir, List.append_nil]
      obtain ⟨iL, iS, iD, iN⟩ := ih
        (acc ++ [FsEntry.dir ["dir" ++ toString (i + 1)]]) k
      refine ⟨?_, ?_, ?_, ?_⟩
      · rw [iL, hEF, hnil]
        simp
      · rw [iS, hEF, hnil]
        simp
      · intro hacc
        apply iD
        intro e he
        rcases List.mem_append.mp he with he | he
        · exact hacc e he
        · rcases List.mem_cons.mp he with he | he
          · subst he; simp [entryDepth]
          · simp at he
      · intro hacc
        apply iN
        intro dirs name sz hmem
        rcases List.mem_append.mp hmem with hmem | hmem
        · exact hacc dirs name sz hmem
        · simp at hmem
theorem treeFat_le (total : Nat) : treeFat total ≤ total := by
  unfold treeFat
  have := Nat.div_le_self total 3
  split <;> omega

theorem createFiles_spec (g : Nat → Nat) :
    ∀ fuel plan k,
      (entryFiles (createFilesFromPlan g fuel plan k).1).length =
          planCount plan ∧
      (entryFiles (createFilesFromPlan g fuel plan k).1).sum = planSum plan ∧
      (∀ e ∈ (createFilesFromPlan g fuel plan k).1, entryDepth e ≤ fuel) ∧
      (∀ dirs name sz,
        FsEntry.file dirs name sz ∈ (createFilesFromPlan g fuel plan k).1 →
          name = formatSize sz ++ "-file") := by
  intro fuel
  induction fuel with
  | zero =>
    intro plan k
    rw [createFilesFromPlan_zero]
    split
    case isTrue h0 =>
      refine ⟨by simpa [entryFiles] using h0.symm, ?_, by simp, by simp [entryFiles]⟩
      simp [entryFiles, planCount_zero_sum plan h0]
    case isFalse h0 =>
      refine ⟨?_, ?_, ?_, ?_⟩
      · rw [entryFiles_mkLeaves, shuffle_length, planFiles_length]
      · rw [entryFiles_mkLeaves, shuffle_sum, planFiles_sum]
      · intro e he
        rw [mkLeaves_depth _ e he]
      · intro dirs name sz hmem
        exact mkLeaves_name _ dirs name sz hmem
  | succ f ih =>
    intro plan k
    rw [createFilesFromPlan_succ]
    split
    case isTrue h0 =>
      refine ⟨by simpa [entryFiles] using h0.symm, ?_, by simp, by simp [entryFiles]⟩
      simp [entryFiles, planCount_zero_sum plan h0]
    case isFalse h0 =>
      unfold treeSubdirs
      have hshl : (shuffle g (planFiles plan) k).1.length = planCount plan := by
        rw [shuffle_length, planFiles_length]
      have hshs : (shuffle g (planFiles plan) k).1.sum = planSum plan := by
        rw [shuffle_sum, planFiles_sum]
      have hfat := treeFat_le (planCount plan)
      split
      case isTrue hrem =>
        -- no files remain after this level: everything was a leaf here
        have hall : (shuffle g (planFiles plan) k).1.length ≤
            treeFat (planCount plan) := by
          rw [List.length_drop] at hrem
          omega
        have htake : (shuffle g (planFiles plan) k).1.take
            (treeFat (planCount plan)) = (shuffle g (planFiles plan) k).1 :=
          List.take_of_length_le hall
        refine ⟨?_, ?_, ?_, ?_⟩
        · rw [entryFiles_mkLeaves, htake, hshl]
        · rw [entryFiles_mkLeaves, htake, hshs]
        · intro e he
          rw [mkLeaves_depth _ e he]
          omega
        · intro dirs name sz hmem
          exact mkLeaves_name _ dirs name sz hmem
      case isFalse hrem =>
        have hns : 0 < numSubdirs
            ((shuffle g (planFiles plan) k).1.drop
              (treeFat (planCount plan))).length
            (g (shuffle g (planFiles plan) k).2) := by
          unfold numSubdirs
          split <;> omega
        obtain ⟨fL, fS, fD, fN⟩ := subdirFold_spec (createFilesFromPlan g f) f
          ((shuffle g (planFiles plan) k).1.drop (treeFat (planCount plan)))
          (numSubdirs
            ((shuffle g (planFiles plan) k).1.drop
              (treeFat (planCount plan))).length
            (g (shuffle g (planFiles plan) k).2))
          (((shuffle g (planFiles plan) k).1.drop
              (treeFat (planCount plan))).length /
            numSubdirs
              ((shuffle g (planFiles plan) k).1.drop
                (treeFat (planCount plan))).length
              (g (shuffle g (planFiles plan) k).2))
          (fun plan k => (ih plan k).1)
          (fun plan k => (ih plan k).2.1)
          (fun plan k e he => (ih plan k).2.2.1 e he)
          (fun plan k dirs name sz hm => (ih plan k).2.2.2 dirs name sz hm)
          (List.range
            (numSubdirs
              ((shuffle g (planFiles plan) k).1.drop
                (treeFat (planCount plan))).length
              (g (shuffle g (planFiles plan) k).2)))
          (mkLeaves
            ((shuffle g (planFiles plan) k).1.take (treeFat (planCount plan))))
          ((shuffle g (planFiles plan) k).2 + 1)
        have hslen := slices_length
          ((shuffle g (planFiles plan) k).1.drop (treeFat (planCount plan)))
          (numSubdirs
            ((shuffle g (planFiles plan) k).1.drop
              (treeFat (planCount plan))).length
            (g (shuffle g (planFiles plan) k).2))
          (((shuffle g (planFiles plan) k).1.drop
              (treeFat (planCount plan))).length /
            numSubdirs
              ((shuffle g (planFiles plan) k).1.drop
                (treeFat (planCount plan))).length
              (g (shuffle g (planFiles plan) k).2)) hns
        have hssum := slices_sum
          ((shuffle g (planFiles plan) k).1.drop (treeFat (planCount plan)))
          (numSubdirs
            ((shuffle g (planFiles plan) k).1.drop
              (treeFat (planCount plan))).length
            (g (shuffle g (planFiles plan) k).2))
          (((shuffle g (planFiles plan) k).1.drop
              (treeFat (planCount plan))).length /
            numSubdirs
              ((shuffle g (planFiles plan) k).1.drop
                (treeFat (planCount plan))).length
              (g (shuffle g (planFiles plan) k).2)) hns
        have htl : ((shuffle g (planFiles plan) k).1.take
            (treeFat (planCount plan))).length = treeFat (planCount plan) := by
          rw [List.length_take]
          omega
        have hts : ((shuffle g (planFiles plan) k).1.take
              (treeFat (planCount plan))).sum +
            ((shuffle g (planFiles plan) k).1.drop
              (treeFat (planCount plan))).sum =
            planSum plan := by
          rw [← hshs, ← List.sum_append, List.take_append_drop]
        refine ⟨?_, ?_, ?_, ?_⟩
        · rw [fL, hslen, entryFiles_mkLeaves, htl, List.length_drop]
          omega
        · rw [fS, hssum, entryFiles_mkLeaves]
          omega
        · apply fD
          intro e he
          rw [mkLeaves_depth _ e he]
          omega
        · apply fN
          intro dirs name sz hmem
          exact mkLeaves_name _ dirs name sz hmem
theorem chunkSizesAux_zero (rem : Nat) : chunkSizesAux 0 rem = [] := rfl

theorem chunkSizesAux_succ (f rem : Nat) :
    chunkSizesAux (f + 1) rem =
      if rem = 0 then []
      else (if 10 * MB < rem then 10 * MB else rem) ::
        chunkSizesAux f (rem - (if 10 * MB < rem then 10 * MB else rem)) := rfl

theorem chunkSizesAux_sum : ∀ f rem, rem ≤ f → (chunkSizesAux f rem).sum = rem := by
  intro f
  induction f with
  | zero =>
    intro rem h
    rw [chunkSizesAux_zero]
    simp only [List.sum_nil]
    omega
  | succ f ih =>
    intro rem h
    rw [chunkSizesAux_succ]
    split
    case isTrue h0 => simp [h0]
    case isFalse h0 =>
      have hMB : MB = 1048576 := rfl
      rw [List.sum_cons, ih]
      · split <;> omega
      · split <;> omega

theorem createSingleFile_sum (n : Nat) : (createSingleFile n).sum = n :=
  chunkSizesAux_sum n n le_rfl

theorem smallLoop_pre (g : Nat → Nat) :
    ∀ rf rem k acc out, smallLoop g rf rem k acc = some out →
      ∃ tl, out.1 = acc ++ tl := by
  intro rf
  induction rf with
  | zero =>
    intro rem k acc out h
    rw [smallLoop_zero] at h
    simp only [Option.some.injEq] at h
    subst h
    exact ⟨[], by simp⟩
  | succ rf ih =>
    intro rem k acc out h
    rw [smallLoop_succ] at h
    split at h
    case isTrue hrem =>
      split at h
      case isTrue hms =>
        simp only [Option.some.injEq] at h
        subst h
        exact ⟨[rem], rfl⟩
      case isFalse hms =>
        cases hr : randn g k (smallMax rem (rf + 1) - 1024) with
        | none => rw [hr] at h; simp at h
        | some rk =>
          rw [hr] at h
          simp only [Option.some_bind] at h
          obtain ⟨tl, htl⟩ := ih _ _ _ _ h
          exact ⟨(rk.1 + 1024) :: tl, by simpa using htl⟩
    case isFalse hrem =>
      simp only [Option.some.injEq] at h
      subst h
      exact ⟨[], by simp⟩

theorem smallLoop_isSome (g : Nat → Nat) :
    ∀ rf rem k acc, ∃ out, smallLoop g rf rem k acc = some out := by
  intro rf
  induction rf with
  | zero => intro rem k acc; exact ⟨_, smallLoop_zero g rem k acc⟩
  | succ rf ih =>
    intro rem k acc
    rw [smallLoop_succ]
    split
    case isTrue hrem =>
      split
      case isTrue hms => exact ⟨_, rfl⟩
      case isFalse hms =>
        rw [randn, if_neg (by omega)]
        simp only [Option.some_bind]
        exact ih _ _ _
    case isFalse hrem => exact ⟨_, rfl⟩

theorem createPlanK_10k (g : Nat → Nat) :
    ∃ p kf, createPlanK g 10240 3 0 = some (p, kf) ∧ planSum p = 10240 := by
  have h1 : vlStage g 10240 3 0 = some ([], 10240, 3, 0) := by
    unfold vlStage
    rw [if_neg (by decide)]
  have h2 : lgStage g 10240 3 0 = some ([], 10240, 3, 0) := by
    unfold lgStage
    rw [if_neg (by decide)]
  have h3 : mdStage g 10240 3 0 = some ([], 10240, 3, 0) := by
    unfold mdStage
    rw [if_neg (by decide)]
  obtain ⟨⟨sm, rem4, rf4, k4⟩, hsl⟩ := smallLoop_isSome g 3 10240 0 []
  have hsum := smallLoop_sum g 3 10240 0 [] sm rem4 rf4 k4 hsl
  simp only [List.sum_nil, Nat.zero_add] at hsum
  have hsm : sm ≠ [] := by
    rw [smallLoop_succ, if_pos (by omega),
      if_neg (show ¬ smallMax 10240 3 ≤ 1024 by decide), randn,
      if_neg (by decide), Option.some_bind] at hsl
    obtain ⟨tl, htl⟩ := smallLoop_pre g _ _ _ _ _ hsl
    simp only at htl
    rw [htl]
    simp
  refine ⟨foldRemainder (Plan.mk [] [] [] sm) rem4, k4, ?_, ?_⟩
  · unfold createPlanK
    rw [h1, Option.some_bind, h2, Option.some_bind, h3, Option.some_bind, hsl]
    rfl
  · rcases foldRemainder_sum (Plan.mk [] [] [] sm) rem4 with hL | ⟨-, hnil, -, -⟩
    · rw [hL]
      simp only [planSum, List.sum_nil]
      omega
    · exact absurd hnil hsm

/-- Claim C3: the Tree Builder materializes exactly one leaf file per size
entry of the plan, each named from its formatted size, and the chunked
writes of all leaves total exactly the plan's size sum; in particular for
the scenario total = 10 KiB, maxDepth = 2, targetFiles = 3 the leaf bytes
written sum to 10 KiB for every random oracle. -/
theorem createFilesFromPlan_leaves :
    (∀ (g : Nat → Nat) (fuel : Nat) (plan : Plan) (k : Nat),
      (entryFiles (createFilesFromPlan g fuel plan k).1).length =
          planCount plan ∧
      ((entryFiles (createFilesFromPlan g fuel plan k).1).map
          (fun fs => (createSingleFile fs).sum)).sum = planSum plan ∧
      ∀ dirs name sz,
        FsEntry.file dirs name sz ∈ (createFilesFromPlan g fuel plan k).1 →
          name = formatSize sz ++ "-file") ∧
    ∀ g : Nat → Nat, ∃ es kf, Create g 10240 2 3 = some (es, kf) ∧
      ((entryFiles es).map (fun fs => (createSingleFile fs).sum)).sum = 10240 := by
  have hmap : ∀ l : List Nat,
      (l.map fun fs => (createSingleFile fs).sum).sum = l.sum := by
    intro l
    congr 1
    rw [show (fun fs => (createSingleFile fs).sum) = id from
      funext fun fs => createSingleFile_sum fs]
    exact List.map_id l
  constructor
  · intro g fuel plan k
    obtain ⟨hL, hS, -, hN⟩ := createFiles_spec g fuel plan k
    exact ⟨hL, by rw [hmap, hS], hN⟩
  · intro g
    obtain ⟨p, kf, hpk, hps⟩ := createPlanK_10k g
    refine ⟨(createFilesFromPlan g 2 p kf).1, (createFilesFromPlan g 2 p kf).2, ?_, ?_⟩
    · unfold Create
      rw [if_neg (by decide), hpk]
      rfl
    · obtain ⟨-, hS, -, -⟩ := createFiles_spec g 2 p kf
      rw [hmap, hS, hps]

/-- Claim C8: the Tree Builder's recursion (modelled on the decreasing fuel
maxDepth − currentDepth, witnessing termination) stops immediately when the
file list is exhausted, and no file or directory entry is ever created at a
directory depth greater than maxDepth below the unit root. -/
theorem createFilesFromPlan_depth (g : Nat → Nat) (fuel : Nat) (plan : Plan)
    (k : Nat) :
    (planCount plan = 0 → createFilesFromPlan g fuel plan k = ([], k)) ∧
    ∀ e ∈ (createFilesFromPlan g fuel plan k).1, entryDepth e ≤ fuel := by
  constructor
  · intro h0
    cases fuel with
    | zero => rw [createFilesFromPlan_zero, if_pos h0]
    | succ f => rw [createFilesFromPlan_succ, if_pos h0]
  · exact (createFiles_spec g fuel plan k).2.2.1
/-- The chunked 'x' writes of createLayerFile (main.go lines 145-165): the
successive buffers, each min(remaining, 10 MiB) bytes of the character x
(strings.Repeat("x", writeSize) copied into the buffer). -/
def layerChunksAux (f : Nat) : Nat → List (List Char) :=
  Nat.rec (motive := fun _ => Nat → List (List Char)) (fun _ => [])
    (fun _ ih rem =>
      if rem = 0 then []
      else List.replicate (if 10 * MB < rem then 10 * MB else rem) 'x' ::
        ih (rem - (if 10 * MB < rem then 10 * MB else rem))) f

/-- createLayerFile (main.go lines 126-168): inside the layer directory it
creates exactly one file, named Format(fileSize) + "-file", and writes the
chunked buffers into it; the model returns that one file's name and its
concatenated content. -/
def createLayerFile (fileSize : Nat) : String × List Char :=
  (formatSize fileSize ++ "-file", (layerChunksAux fileSize fileSize).flatten)

theorem layerChunksAux_zero (rem : Nat) : layerChunksAux 0 rem = [] := rfl

theorem layerChunksAux_succ (f rem : Nat) :
    layerChunksAux (f + 1) rem =
      if rem = 0 then []
      else List.replicate (if 10 * MB < rem then 10 * MB else rem) 'x' ::
        layerChunksAux f (rem - (if 10 * MB < rem then 10 * MB else rem)) := rfl

theorem layerChunksAux_flatten :
    ∀ f rem, rem ≤ f → (layerChunksAux f rem).flatten = List.replicate rem 'x' := by
  intro f
  induction f with
  | zero =>
    intro rem h
    rw [layerChunksAux_zero]
    have : rem = 0 := by omega
    subst this
    rfl
  | succ f ih =>
    intro rem h
    rw [layerChunksAux_succ]
    split
    case isTrue h0 => subst h0; rfl
    case isFalse h0 =>
      have hMB : MB = 1048576 := rfl
      rw [List.flatten_cons, ih _ (by split <;> omega)]
      rw [← List.replicate_add]
      congr 1
      split <;> omega

/-- Claim C10: in single-file mode createLayerFile materializes exactly one
file, named Format(fileSize) + "-file", whose content is exactly fileSize
bytes, every one the character x — fully deterministic in the size. -/
theorem createLayerFile_spec (fileSize : Nat) :
    (createLayerFile fileSize).1 = formatSize fileSize ++ "-file" ∧
    (createLayerFile fileSize).2.length = fileSize ∧
    (createLayerFile fileSize).2 = List.replicate fileSize 'x' ∧
    ∀ c ∈ (createLayerFile fileSize).2, c = 'x' := by
  have hflat : (createLayerFile fileSize).2 = List.replicate fileSize 'x' :=
    layerChunksAux_flatten fileSize fileSize le_rfl
  refine ⟨rfl, ?_, hflat, ?_⟩
  · rw [hflat, List.length_replicate]
  · intro c hc
    rw [hflat] at hc
    exact List.eq_of_mem_replicate hc

/-- LayerJob (main.go lines 41-45); the layer directory path is determined
by the 1-based layer number, so the model keeps number and size. -/
structure LayerJob where
  layerNum : Nat
  size : Nat
deriving DecidableEq, Repr

/-- The submission goroutine (main.go lines 91-101): one job per input size,
in input order, numbered from 1. -/
def mkJobs (sizes : List Nat) : List LayerJob :=
  sizes.enum.map fun p => LayerJob.mk (p.1 + 1) p.2

/-- The job numbers, in submission order. -/
def jobNums (sizes : List Nat) : List Nat :=
  (mkJobs sizes).map LayerJob.layerNum

/-- The result-collection loop of createLayersConcurrently (main.go lines
110-117) over the results in arrival order: each job's outcome is a function
of its number (none = success); on the first error the loop returns
immediately with that error wrapped with the failing layer's number, later
arrivals unexamined; a success is recorded and reported to the tracker
before the next receive.  Returns (the numbers reported to the Progress
Reporter in order, the error). -/
def collectResults (outcome : Nat → Option String) (arr : List Nat) :
    List Nat × Option (Nat × String) :=
  List.rec ([], none)
    (fun i _ ih =>
      match outcome i with
      | some e => ([], some (i, e))
      | none => (i :: ih.1, ih.2)) arr

theorem collectResults_nil (outcome : Nat → Option String) :
    collectResults outcome [] = ([], none) := rfl

theorem collectResults_cons (outcome : Nat → Option String) (i : Nat)
    (rest : List Nat) :
    collectResults outcome (i :: rest) =
      match outcome i with
      | some e => ([], some (i, e))
      | none =>
        ((i :: (collectResults outcome rest).1),
          (collectResults outcome rest).2) := rfl

theorem jobNums_eq (sizes : List Nat) :
    jobNums sizes = (List.range sizes.length).map (fun i => i + 1) := by
  unfold jobNums mkJobs
  rw [List.map_map, ← List.enum_map_fst sizes, List.map_map]
  rfl

theorem collectResults_ok (outcome : Nat → Option String) :
    ∀ arr : List Nat, (∀ i ∈ arr, outcome i = none) →
      collectResults outcome arr = (arr, none) := by
  intro arr
  induction arr with
  | nil => intro _; rfl
  | cons i rest ih =>
    intro hok
    rw [collectResults_cons, hok i (by simp),
      ih (fun x hx => hok x (List.mem_cons_of_mem _ hx))]

/-- Claim C4: with no failing job, the collector consumes every result
exactly once with no error, and the result indices are exactly 1..K with no
duplicates and no gaps, for every arrival order of the K job results. -/
theorem collectResults_allSuccess (sizes : List Nat)
    (outcome : Nat → Option String) (arr : List Nat)
    (hperm : arr.Perm (jobNums sizes))
    (hok : ∀ i ∈ arr, outcome i = none) :
    collectResults outcome arr = (arr, none) ∧
    arr.length = sizes.length ∧ arr.Nodup ∧
    ∀ n, n ∈ arr ↔ 1 ≤ n ∧ n ≤ sizes.length := by
  have hjn := jobNums_eq sizes
  refine ⟨collectResults_ok outcome arr hok, ?_, ?_, ?_⟩
  · rw [hperm.length_eq, hjn, List.length_map, List.length_range]
  · rw [hperm.nodup_iff, hjn]
    exact (List.nodup_range _).map (fun a b => by omega)
  · intro n
    rw [hperm.mem_iff, hjn]
    simp only [List.mem_map, List.mem_range]
    constructor
    · rintro ⟨i, hi, rfl⟩; omega
    · intro h; exact ⟨n - 1, by omega, by omega⟩

/-- Witness for claim C4: two jobs, results arriving out of order, none
failing. -/
theorem collectResults_allSuccess_witness :
    collectResults (fun _ => none) [2, 1] = ([2, 1], none) ∧
    [2, 1].length = [7, 9].length ∧ [2, 1].Nodup ∧
    ∀ n, n ∈ [2, 1] ↔ 1 ≤ n ∧ n ≤ [7, 9].length :=
  collectResults_allSuccess [7, 9] (fun _ => none) [2, 1]
    (by decide) (by decide)

/-- Claim C7: on the first failing result the collector returns that job's
error wrapped with its 1-based layer number; only the successes that arrived
before it were reported, and nothing after the failure is examined (the
conclusion does not depend on the later arrivals). -/
theorem collectResults_firstFailure (outcome : Nat → Option String)
    (pre post : List Nat) (j : Nat) (e : String)
    (hpre : ∀ i ∈ pre, outcome i = none) (hj : outcome j = some e) :
    collectResults outcome (pre ++ j :: post) = (pre, some (j, e)) := by
  induction pre with
  | nil =>
    rw [List.nil_append, collectResults_cons, hj]
  | cons i rest ih =>
    rw [List.cons_append, collectResults_cons, hpre i (by simp),
      ih (fun x hx => hpre x (List.mem_cons_of_mem _ hx))]

/-- Witness for claim C7: job 2 fails after job 1 succeeded; job 3's result
is still in flight and never examined. -/
theorem collectResults_firstFailure_witness :
    collectResults (fun i => if i = 2 then some "boom" else none)
      ([1] ++ 2 :: [3]) = ([1], some (2, "boom")) :=
  collectResults_firstFailure (fun i => if i = 2 then some "boom" else none)
    [1] [3] 2 "boom" (by decide) (by decide)

/-- cleanup.Manager (cleanup/manager.go lines 12-17): the build directory
and the interrupted flag (the mutex serializes the triggers, so the model
applies them in sequence). -/
structure Manager where
  buildDir : String
  interrupted : Bool
deriving DecidableEq, Repr

/-- Manager.cleanup (manager.go lines 47-58): removes buildDir when it is
still set and clears it to prevent double cleanup; the returned list is the
removal performed (empty for the no-op). -/
def Manager.cleanup (m : Manager) : Manager × List String :=
  if m.buildDir ≠ "" then ({ m with buildDir := "" }, [m.buildDir])
  else (m, [])

/-- The two external triggers: the signal handler (manager.go lines 32-43)
and GracefulCleanup on normal completion (lines 61-68). -/
inductive Trig where
  | interrupt
  | normalDone
deriving DecidableEq, Repr

/-- One mutex-guarded trigger: the signal handler sets interrupted, cleans
up and exits the process (third component true); GracefulCleanup cleans up
only when no interrupt won the flag first. -/
def trigStep (m : Manager) : Trig → Manager × List String × Bool
  | .interrupt =>
    if m.interrupted = false then
      ((Manager.cleanup { m with interrupted := true }).1,
        (Manager.cleanup { m with interrupted := true }).2, true)
    else (m, [], false)
  | .normalDone =>
    if m.interrupted = false then (m.cleanup.1, m.cleanup.2, false)
    else (m, [], false)

/-- A sequence of triggers applied to the manager; after the handler's
os.Exit nothing further runs.  Returns the final state and every removal
performed. -/
def runTriggers : Manager → List Trig → Manager × List String
  | m, [] => (m, [])
  | m, t :: ts =>
    if (trigStep m t).2.2 then ((trigStep m t).1, (trigStep m t).2.1)
    else ((runTriggers (trigStep m t).1 ts).1,
      (trigStep m t).2.1 ++ (runTriggers (trigStep m t).1 ts).2)
theorem runTriggers_nil (m : Manager) : runTriggers m [] = (m, []) := rfl

theorem runTriggers_cons (m : Manager) (t : Trig) (ts : List Trig) :
    runTriggers m (t :: ts) =
      if (trigStep m t).2.2 then ((trigStep m t).1, (trigStep m t).2.1)
      else ((runTriggers (trigStep m t).1 ts).1,
        (trigStep m t).2.1 ++ (runTriggers (trigStep m t).1 ts).2) := rfl

theorem trigStep_empty (m : Manager) (t : Trig) (h : m.buildDir = "") :
    (trigStep m t).1.buildDir = "" ∧ (trigStep m t).2.1 = [] := by
  cases t <;> (simp [trigStep, Manager.cleanup, h]; try split_ifs <;> simp [h])

theorem runTriggers_empty :
    ∀ (ts : List Trig) (m : Manager), m.buildDir = "" →
      (runTriggers m ts).2 = [] := by
  intro ts
  induction ts with
  | nil => intro m _; rfl
  | cons t ts ih =>
    intro m h
    obtain ⟨h1, h2⟩ := trigStep_empty m t h
    rw [runTriggers_cons]
    split
    · exact h2
    · rw [h2, ih _ h1]
      rfl

theorem runTriggers_dels :
    ∀ (ts : List Trig) (m : Manager),
      (runTriggers m ts).2 = [] ∨
      ((runTriggers m ts).2 = [m.buildDir] ∧ m.buildDir ≠ "") := by
  intro ts
  induction ts with
  | nil => intro m; left; rfl
  | cons t ts ih =>
    intro m
    rw [runTriggers_cons]
    by_cases hd : m.buildDir = ""
    · left
      obtain ⟨h1, h2⟩ := trigStep_empty m t hd
      split
      · exact h2
      · rw [h2, runTriggers_empty ts _ h1]
        rfl
    · cases t with
      | interrupt =>
        cases hi : m.interrupted with
        | false =>
          have hstep : trigStep m Trig.interrupt =
              ({ m with interrupted := true, buildDir := "" },
                [m.buildDir], true) := by
            simp [trigStep, hi, Manager.cleanup, hd]
          rw [hstep]
          right
          exact ⟨rfl, hd⟩
        | true =>
          have hstep : trigStep m Trig.interrupt = (m, [], false) := by
            simp [trigStep, hi]
          rw [hstep]
          simpa using ih m
      | normalDone =>
        cases hi : m.interrupted with
        | false =>
          have hstep : trigStep m Trig.normalDone =
              ({ m with buildDir := "" }, [m.buildDir], false) := by
            simp [trigStep, hi, Manager.cleanup, hd]
          rw [hstep]
          right
          rw [runTriggers_empty ts _ (by rfl)]
          exact ⟨rfl, hd⟩
        | true =>
          have hstep : trigStep m Trig.normalDone = (m, [], false) := by
            simp [trigStep, hi]
          rw [hstep]
          simpa using ih m

/-- Claim C9: across any sequence of cleanup triggers (interrupt signals,
second interrupts, normal completion) the manager removes the build
directory at most once — every run's removal list is empty or the single
build directory — and a second cleanup call after a first is always a
no-op. -/
theorem cleanup_atMostOnce (dir : String) (ts : List Trig) :
    ((runTriggers (Manager.mk dir false) ts).2 = [] ∨
      (runTriggers (Manager.mk dir false) ts).2 = [dir]) ∧
    ∀ m : Manager, (Manager.cleanup (Manager.cleanup m).1).2 = [] := by
  constructor
  · rcases runTriggers_dels ts (Manager.mk dir false) with h | ⟨h, -⟩
    · left; exact h
    · right; exact h
  · intro m
    unfold Manager.cleanup
    split_ifs with h1 h2 <;> simp_all
/-- ASCII whitespace as trimmed by strings.TrimSpace (Unicode spaces beyond
ASCII are not modelled; the claims do not exercise them). -/
def goIsSpace (c : Char) : Bool :=
  c = ' ' || c = '\t' || c = '\n' || c = '\x0b' || c = '\x0c' || c = '\r'

/-- strings.TrimSpace on a char-list string. -/
def trimSpace (l : List Char) : List Char :=
  ((l.dropWhile goIsSpace).reverse.dropWhile goIsSpace).reverse

/-- strings.HasSuffix: the last characters of l are s. -/
def endsWithL (l s : List Char) : Bool :=
  l.reverse.take s.length == s.reverse

/-- An optional leading sign (strconv syntax): (negative, rest). -/
def parseSign : List Char → Bool × List Char
  | '+' :: r => (false, r)
  | '-' :: r => (true, r)
  | l => (false, l)

/-- Value of a digit string. -/
def digitsVal (l : List Char) : Nat :=
  l.foldl (fun a c => a * 10 + (c.toNat - 48)) 0

/-- The mantissa of a decimal literal: digits with at most one dot and at
least one digit.  Returns (digits value, fraction length, rest). -/
def parseMantissa (l : List Char) : Option (Nat × Nat × List Char) :=
  match l.dropWhile Char.isDigit with
  | '.' :: r2 =>
    if (l.takeWhile Char.isDigit).length + (r2.takeWhile Char.isDigit).length
        = 0 then none
    else
      some (digitsVal (l.takeWhile Char.isDigit ++ r2.takeWhile Char.isDigit),
        (r2.takeWhile Char.isDigit).length, r2.dropWhile Char.isDigit)
  | _ =>
    if (l.takeWhile Char.isDigit).length = 0 then none
    else some (digitsVal (l.takeWhile Char.isDigit), 0, l.dropWhile Char.isDigit)

/-- The optional decimal exponent ending the literal. -/
def parseExp (l : List Char) : Option Int :=
  match l with
  | [] => some 0
  | e :: r =>
    if e = 'e' ∨ e = 'E' then
      if ((parseSign r).2.takeWhile Char.isDigit).length = 0 then none
      else if (parseSign r).2.dropWhile Char.isDigit ≠ [] then none
      else
        some (if (parseSign r).1
          then -(digitsVal ((parseSign r).2.takeWhile Char.isDigit) : Int)
          else (digitsVal ((parseSign r).2.takeWhile Char.isDigit) : Int))
    else none

/-- The restriction of strconv.ParseFloat to plain signed decimal literals,
evaluated exactly: optional sign, digits with an optional fraction, optional
e/E exponent, as (negative, mantissa digits, fraction length, exponent).
This is NOT all of strconv.ParseFloat: Go additionally accepts hex floats,
inf/nan and digit underscores, reports ErrRange on out-of-range values, and
rounds the decimal to float64.  The claim theorem therefore quantifies over
the numeric parser instead of using this definition; it only instantiates
the counterexample, whose numeric part "-5" is a small plain decimal on
which ParseFloat is exact, so this restriction and Go agree there. -/
def goParseFloat (l : List Char) : Option (Bool × Nat × Nat × Int) :=
  (parseMantissa (parseSign l).2).bind fun m =>
    (parseExp m.2.2).map fun ex => ((parseSign l).1, m.1, m.2.1, ex)

/-- int64(value * multiplier) computed on the exact rational
± digits·mult·10^(exp−fracLen), truncated toward zero.  Go computes this
through float64 arithmetic, which rounds mantissas beyond 53 bits and
overflows outside int64; the claim theorem therefore quantifies over the
conversion, and this exact version is used only for the counterexample,
where every intermediate (-5, 1024, -5120) is exactly representable in
float64 and in range, so it agrees with Go there. -/
def scaledValue (neg : Bool) (digits fracLen : Nat) (ex : Int) (mult : Nat) :
    Int :=
  if (fracLen : Int) ≤ ex then
    (if neg then -(1 : Int) else 1) *
      ((digits * mult * 10 ^ (ex - fracLen).toNat : Nat) : Int)
  else
    (if neg then -(1 : Int) else 1) *
      ((digits * mult / 10 ^ ((fracLen : Int) - ex).toNat : Nat) : Int)

/-- The suffix selection of size.Parse (parser.go lines 31-64), in the
source's order: bytes (a trailing B that is not KB/MB/GB), BYTES, BYTE,
then KB, K, MB, M, GB, G.  Returns (suffix length stripped, multiplier). -/
def pickSuffix (upper : List Char) : Nat × Nat :=
  if endsWithL upper ['B'] ∧ ¬ endsWithL upper ['K', 'B'] ∧
      ¬ endsWithL upper ['M', 'B'] ∧ ¬ endsWithL upper ['G', 'B'] then (1, 1)
  else if endsWithL upper ['B', 'Y', 'T', 'E', 'S'] then (5, 1)
  else if endsWithL upper ['B', 'Y', 'T', 'E'] then (4, 1)
  else if endsWithL upper ['K', 'B'] then (2, KB)
  else if endsWithL upper ['K'] then (1, KB)
  else if endsWithL upper ['M', 'B'] then (2, MB)
  else if endsWithL upper ['M'] then (1, MB)
  else if endsWithL upper ['G', 'B'] then (2, GB)
  else if endsWithL upper ['G'] then (1, GB)
  else (0, 1)

/-- size.Parse (parser.go lines 17-74) with the numeric parser
(strconv.ParseFloat, returning none for a non-nil error including ErrRange)
and the int64 conversion of value times multiplier left as parameters: trim,
reject the empty string, match the suffix on the uppercased string in the
source's branch order, strip its length from the original string, parse the
remainder with pf and convert with conv.  Abstracting pf and conv keeps the
theorems true of the real ParseFloat and of Go's float64 arithmetic, whose
full syntax (hex floats, inf/nan, digit underscores), range errors and
rounding are not re-modelled here. -/
def ParseWith {α : Type} (pf : List Char → Option α) (conv : α → Nat → Int)
    (s : List Char) : Option Int :=
  if trimSpace s = [] then none
  else
    (pf ((trimSpace s).take ((trimSpace s).length -
        (pickSuffix ((trimSpace s).map Char.toUpper)).1))).map
      fun d => conv d (pickSuffix ((trimSpace s).map Char.toUpper)).2

/-- The exact-decimal instantiation of the conversion parameter. -/
def dconv (d : Bool × Nat × Nat × Int) (mult : Nat) : Int :=
  scaledValue d.1 d.2.1 d.2.2.1 d.2.2.2 mult

/-- size.Parse instantiated with the exact decimal parser and conversion;
it agrees with Go on the counterexample input, where ParseFloat and the
float64 arithmetic are exact (see goParseFloat and scaledValue). -/
def Parse (s : List Char) : Option Int :=
  ParseWith goParseFloat dconv s

/-- Modelled from the spec's words for the amended claim C5: the recognized
unit suffixes with their multipliers, longest first. -/
def suffixTable : List (List Char × Nat) :=
  [(['B', 'Y', 'T', 'E', 'S'], 1), (['B', 'Y', 'T', 'E'], 1),
    (['K', 'B'], KB), (['M', 'B'], MB), (['G', 'B'], GB),
    (['B'], 1), (['K'], KB), (['M'], MB), (['G'], GB)]

/-- Spec-shaped suffix selection: the first (longest-first) table entry the
uppercased string ends with. -/
def pickSuffixSpec (upper : List Char) : Nat × Nat :=
  match suffixTable.find? (fun e => endsWithL upper e.1) with
  | some e => (e.1.length, e.2)
  | none => (0, 1)

/-- Spec-shaped parse for the amended claim C5, with the same numeric
parser and conversion parameters: empty after trimming fails; otherwise the
longest recognized case-insensitive suffix picks the multiplier (1, 1024,
1024², 1024³) and is stripped, and the remaining numeric part is parsed and
converted. -/
def ParseSpecWith {α : Type} (pf : List Char → Option α)
    (conv : α → Nat → Int) (s : List Char) : Option Int :=
  if trimSpace s = [] then none
  else
    (pf ((trimSpace s).take ((trimSpace s).length -
        (pickSuffixSpec ((trimSpace s).map Char.toUpper)).1))).map
      fun d => conv d (pickSuffixSpec ((trimSpace s).map Char.toUpper)).2

theorem endsWithL_iff (l s : List Char) :
    endsWithL l s = true ↔ l.reverse.take s.length = s.reverse := by
  simp [endsWithL]

theorem endsWith_head (u s : List Char) (c : Char) (h : endsWithL u s = true)
    (hc : s.reverse.take 1 = [c]) : u.reverse.take 1 = [c] := by
  rw [endsWithL_iff] at h
  have hlen : 1 ≤ s.length := by
    rcases s with _ | ⟨a, t⟩
    · simp at hc
    · simp
  have h2 : (u.reverse.take s.length).take 1 = u.reverse.take 1 := by
    rw [List.take_take]
    congr 1
    omega
  rw [← h2, h, hc]

theorem endsWith_false (u s : List Char) (c c2 : Char)
    (hu : u.reverse.take 1 = [c]) (hc : s.reverse.take 1 = [c2])
    (hne : c ≠ c2) : endsWithL u s = false := by
  cases h : endsWithL u s with
  | false => rfl
  | true =>
    have h2 := endsWith_head u s c2 h hc
    rw [hu] at h2
    injection h2 with h3 h4
    exact (hne h3).elim

theorem pickSuffix_eq (u : List Char) : pickSuffix u = pickSuffixSpec u := by
  cases hu0 : u.reverse with
  | nil =>
    have he : u = [] := List.reverse_eq_nil_iff.mp hu0
    subst he
    decide
  | cons c r =>
    have hr : u.reverse.take 1 = [c] := by rw [hu0]; rfl
    have F := fun (s : List Char) (c2 : Char) (hc : s.reverse.take 1 = [c2])
      (hne : c ≠ c2) => endsWith_false u s c c2 hr hc hne
    by_cases hcB : c = 'B'
    · subst hcB
      have t1 : endsWithL u ['B'] = true := by
        have he : endsWithL u ['B'] = (u.reverse.take 1 == ['B']) := rfl
        rw [he, hr]; rfl
      have fS := F ['B', 'Y', 'T', 'E', 'S'] 'S' (by decide) (by decide)
      have fE := F ['B', 'Y', 'T', 'E'] 'E' (by decide) (by decide)
      have fK := F ['K'] 'K' (by decide) (by decide)
      have fM := F ['M'] 'M' (by decide) (by decide)
      have fG := F ['G'] 'G' (by decide) (by decide)
      cases hKB : endsWithL u ['K', 'B'] <;>
        cases hMB : endsWithL u ['M', 'B'] <;>
          cases hGB : endsWithL u ['G', 'B'] <;>
            simp [pickSuffix, pickSuffixSpec, suffixTable, List.find?,
              t1, fS, fE, fK, fM, fG, hKB, hMB, hGB]
    · by_cases hcK : c = 'K'
      · subst hcK
        have t1 : endsWithL u ['K'] = true := by
          have he : endsWithL u ['K'] = (u.reverse.take 1 == ['K']) := rfl
          rw [he, hr]; rfl
        have f1 := F ['B'] 'B' (by decide) (by decide)
        have fS := F ['B', 'Y', 'T', 'E', 'S'] 'S' (by decide) (by decide)
        have fE := F ['B', 'Y', 'T', 'E'] 'E' (by decide) (by decide)
        have fKB := F ['K', 'B'] 'B' (by decide) (by decide)
        have fMB := F ['M', 'B'] 'B' (by decide) (by decide)
        have fGB := F ['G', 'B'] 'B' (by decide) (by decide)
        have fM := F ['M'] 'M' (by decide) (by decide)
        have fG := F ['G'] 'G' (by decide) (by decide)
        simp [pickSuffix, pickSuffixSpec, suffixTable, List.find?,
          t1, f1, fS, fE, fKB, fMB, fGB, fM, fG]
      · by_cases hcM : c = 'M'
        · subst hcM
          have t1 : endsWithL u ['M'] = true := by
            have he : endsWithL u ['M'] = (u.reverse.take 1 == ['M']) := rfl
            rw [he, hr]; rfl
          have f1 := F ['B'] 'B' (by decide) (by decide)
          have fS := F ['B', 'Y', 'T', 'E', 'S'] 'S' (by decide) (by decide)
          have fE := F ['B', 'Y', 'T', 'E'] 'E' (by decide) (by decide)
          have fKB := F ['K', 'B'] 'B' (by decide) (by decide)
          have fMB := F ['M', 'B'] 'B' (by decide) (by decide)
          have fGB := F ['G', 'B'] 'B' (by decide) (by decide)
          have fK := F ['K'] 'K' (by decide) (by decide)
          have fG := F ['G'] 'G' (by decide) (by decide)
          simp [pickSuffix, pickSuffixSpec, suffixTable, List.find?,
            t1, f1, fS, fE, fKB, fMB, fGB, fK, fG]
        · by_cases hcG : c = 'G'
          · subst hcG
            have t1 : endsWithL u ['G'] = true := by
              have he : endsWithL u ['G'] = (u.reverse.take 1 == ['G']) := rfl
              rw [he, hr]; rfl
            have f1 := F ['B'] 'B' (by decide) (by decide)
            have fS := F ['B', 'Y', 'T', 'E', 'S'] 'S' (by decide) (by decide)
            have fE := F ['B', 'Y', 'T', 'E'] 'E' (by decide) (by decide)
            have fKB := F ['K', 'B'] 'B' (by decide) (by decide)
            have fMB := F ['M', 'B'] 'B' (by decide) (by decide)
            have fGB := F ['G', 'B'] 'B' (by decide) (by decide)
            have fK := F ['K'] 'K' (by decide) (by decide)
            have fM := F ['M'] 'M' (by decide) (by decide)
            simp [pickSuffix, pickSuffixSpec, suffixTable, List.find?,
              t1, f1, fS, fE, fKB, fMB, fGB, fK, fM]
          · by_cases hcS : c = 'S'
            · subst hcS
              have f1 := F ['B'] 'B' (by decide) (by decide)
              have fE := F ['B', 'Y', 'T', 'E'] 'E' (by decide) (by decide)
              have fKB := F ['K', 'B'] 'B' (by decide) (by decide)
              have fMB := F ['M', 'B'] 'B' (by decide) (by decide)
              have fGB := F ['G', 'B'] 'B' (by decide) (by decide)
              have fK := F ['K'] 'K' (by decide) (by decide)
              have fM := F ['M'] 'M' (by decide) (by decide)
              have fG := F ['G'] 'G' (by decide) (by decide)
              cases hS : endsWithL u ['B', 'Y', 'T', 'E', 'S'] <;>
                simp [pickSuffix, pickSuffixSpec, suffixTable, List.find?,
                  f1, fE, fKB, fMB, fGB, fK, fM, fG, hS]
            · by_cases hcE : c = 'E'
              · subst hcE
                have f1 := F ['B'] 'B' (by decide) (by decide)
                have fS := F ['B', 'Y', 'T', 'E', 'S'] 'S' (by decide)
                  (by decide)
                have fKB := F ['K', 'B'] 'B' (by decide) (by decide)
                have fMB := F ['M', 'B'] 'B' (by decide) (by decide)
                have fGB := F ['G', 'B'] 'B' (by decide) (by decide)
                have fK := F ['K'] 'K' (by decide) (by decide)
                have fM := F ['M'] 'M' (by decide) (by decide)
                have fG := F ['G'] 'G' (by decide) (by decide)
                cases hE : endsWithL u ['B', 'Y', 'T', 'E'] <;>
                  simp [pickSuffix, pickSuffixSpec, suffixTable, List.find?,
                    f1, fS, fKB, fMB, fGB, fK, fM, fG, hE]
              · have f1 := F ['B'] 'B' (by decide) hcB
                have fS := F ['B', 'Y', 'T', 'E', 'S'] 'S' (by decide) hcS
                have fE := F ['B', 'Y', 'T', 'E'] 'E' (by decide) hcE
                have fKB := F ['K', 'B'] 'B' (by decide) hcB
                have fMB := F ['M', 'B'] 'B' (by decide) hcB
                have fGB := F ['G', 'B'] 'B' (by decide) hcB
                have fK := F ['K'] 'K' (by decide) hcK
                have fM := F ['M'] 'M' (by decide) hcM
                have fG := F ['G'] 'G' (by decide) hcG
                simp [pickSuffix, pickSuffixSpec, suffixTable, List.find?,
                  f1, fS, fE, fKB, fMB, fGB, fK, fM, fG]

/-- Claim C5 (amended): in size.Parse the unit-suffix matching never itself
causes a failure, and the source's branch order is equivalent to trying the
recognized suffixes (BYTES, BYTE, KB, MB, GB, B, K, M, G, case-insensitive)
longest first.  For EVERY behavior pf of the numeric parser
(strconv.ParseFloat, which accepts signed numerics — see the counterexample
"-5KB" refuting the claim's non-negative condition) and every conversion
conv, Parse fails exactly when the trimmed string is empty or pf rejects
the numeric part left after stripping the matched suffix, and otherwise
returns the converted scaled value. -/
theorem Parse_eq_spec (α : Type) (pf : List Char → Option α)
    (conv : α → Nat → Int) (s : List Char) :
    ParseWith pf conv s = ParseSpecWith pf conv s ∧
    (ParseWith pf conv s = none ↔ trimSpace s = [] ∨
      pf ((trimSpace s).take ((trimSpace s).length -
        (pickSuffix ((trimSpace s).map Char.toUpper)).1)) = none) := by
  constructor
  · by_cases ht : trimSpace s = []
    · simp [ParseWith, ParseSpecWith, ht]
    · simp only [ParseWith, ParseSpecWith, ht, if_false]
      rw [pickSuffix_eq]
  · by_cases ht : trimSpace s = []
    · simp [ParseWith, ht]
    · simp [ParseWith, ht, Option.map_eq_none']

/-- "-5KB" is accepted by size.Parse with the negative value -5120, although
the claim says a numeric part that is not a non-negative decimal fails. -/
theorem Parse_negative_cex :
    Parse "-5KB".toList = some (-5120) ∧ (-5120 : Int) < 0 := by
  constructor
  · rfl
  · decide
